import Mathlib

/-!
# Verification of the meshoptimizer 1.0 header (`src/meshoptimizer.hpp`)

This file gives a shallow embedding of the quantization helpers that are
defined inline in the header (`quantizeUnorm`, `quantizeSnorm`,
`quantizeHalf`), together with models of the optimizer entry points whose
bodies are not part of this repository snapshot (only their declarations
and the specification describe them; those models carry a
`Modelled from the spec:` doc comment).

Floating point is embedded exactly:
* `quantizeHalf` manipulates only the IEEE-754 bit pattern of its input,
  so it is embedded as a function on 32-bit patterns (`ℕ` below `2^32`),
  mirroring the C source line by line.
* `quantizeUnorm`/`quantizeSnorm` perform one binary32 multiplication and
  one binary32 addition on their (finite or NaN) input.  A finite binary32
  value is represented by the exact rational it denotes, and each C float
  operation is embedded as the exact rational operation followed by
  `rnd32`, correct rounding to nearest (ties to even) at binary32
  precision.  NaN is a separate constructor; every C comparison involving
  it is false, exactly as in IEEE arithmetic (all NaN payloads behave
  identically in these two functions, which only compare and clamp).
-/

/-! ## Exact binary32 rounding on rationals -/

/-- Round a rational to the nearest integer, ties to even
(the IEEE-754 default rounding used by C float arithmetic). -/
def rne (q : ℚ) : ℤ :=
  if q - ⌊q⌋ < 1/2 then ⌊q⌋
  else if 1/2 < q - ⌊q⌋ then ⌊q⌋ + 1
  else if Even ⌊q⌋ then ⌊q⌋ else ⌊q⌋ + 1

/-- Exponent of the unit in the last place of a binary32 number of
magnitude comparable to `q`: `2^(uexp q)` is the spacing of binary32
values around `q` (clamped at the denormal spacing `2^(-149)`). -/
def uexp (q : ℚ) : ℤ := max (Int.log 2 |q| - 23) (-149)

/-- Correct rounding of an exact rational to binary32 precision
(round to nearest, ties to even).  Overflow to infinity is not modelled;
every use in this file stays far below `2^128`. -/
def rnd32 (q : ℚ) : ℚ :=
  if q = 0 then 0 else (rne (q / 2 ^ uexp q) : ℚ) * 2 ^ uexp q

/-! ## Binary32 values with NaN, and the embedded quantizers -/

/-- A binary32 input as the quantizers see it: NaN, or a finite value
(given by the exact rational it denotes).  `quantizeUnorm` and
`quantizeSnorm` only compare, clamp, multiply and add, so all NaN
payloads are interchangeable and `−0.0` behaves exactly like `0.0`
(in C, `-0.0f >= 0` holds and `-0.0f * s = -0.0f = 0.0f` numerically). -/
inductive F32 where
  | nan : F32
  | fin : ℚ → F32
deriving DecidableEq

/-- C `>=` on floats: false whenever either side is NaN. -/
def fge : F32 → F32 → Bool
  | F32.nan, _ => false
  | _, F32.nan => false
  | F32.fin a, F32.fin b => decide (b ≤ a)

/-- C `<=` on floats: false whenever either side is NaN. -/
def fle : F32 → F32 → Bool
  | F32.nan, _ => false
  | _, F32.nan => false
  | F32.fin a, F32.fin b => decide (a ≤ b)

/-- C float multiplication: exact product, correctly rounded; NaN propagates. -/
def fmul : F32 → F32 → F32
  | F32.nan, _ => F32.nan
  | _, F32.nan => F32.nan
  | F32.fin a, F32.fin b => F32.fin (rnd32 (a * b))

/-- C float addition: exact sum, correctly rounded; NaN propagates. -/
def fadd : F32 → F32 → F32
  | F32.nan, _ => F32.nan
  | _, F32.nan => F32.nan
  | F32.fin a, F32.fin b => F32.fin (rnd32 (a + b))

/-- Truncation toward zero, as in a C `float`-to-`int` cast. -/
def ftrunc : F32 → ℤ
  | F32.nan => 0  -- C `int(NaN)` is UB; unreachable in the functions below
  | F32.fin q => if q < 0 then ⌈q⌉ else ⌊q⌋

/-- Shallow embedding of the header's `quantizeUnorm`:
```c
inline int quantizeUnorm(float v, int bits)
{
    const float scale = float((1 << bits) - 1);
    v = (v >= 0) ? v : 0;
    v = (v <= 1) ? v : 1;
    return int(v * scale + 0.5f);
}
``` -/
def quantizeUnorm (v : F32) (bits : ℕ) : ℤ :=
  let scale : F32 := F32.fin (rnd32 (((1 <<< bits) - 1 : ℕ) : ℚ))
  let v1 : F32 := if fge v (F32.fin 0) then v else F32.fin 0
  let v2 : F32 := if fle v1 (F32.fin 1) then v1 else F32.fin 1
  ftrunc (fadd (fmul v2 scale) (F32.fin (1/2)))

/-- Shallow embedding of the header's `quantizeSnorm`:
```c
inline int quantizeSnorm(float v, int bits)
{
    const float scale = float((1 << (bits - 1)) - 1);
    float round = (v >= 0 ? 0.5f : -0.5f);
    v = (v >= -1) ? v : -1;
    v = (v <= +1) ? v : +1;
    return int(v * scale + round);
}
``` -/
def quantizeSnorm (v : F32) (bits : ℕ) : ℤ :=
  let scale : F32 := F32.fin (rnd32 (((1 <<< (bits - 1)) - 1 : ℕ) : ℚ))
  let rou : F32 := if fge v (F32.fin 0) then F32.fin (1/2) else F32.fin (-(1/2))
  let v1 : F32 := if fge v (F32.fin (-1)) then v else F32.fin (-1)
  let v2 : F32 := if fle v1 (F32.fin 1) then v1 else F32.fin 1
  ftrunc (fadd (fmul v2 scale) rou)

/-! ## `quantizeHalf` on bit patterns -/

/-- Shallow embedding of the header's `quantizeHalf`.  The C function
reinterprets the float as its 32-bit pattern (`ui`) and computes:
```c
int s = (ui >> 16) & 0x8000;
int em = ui & 0x7fffffff;
int h = (em - (112 << 23) + (1 << 12)) >> 13;
h = (em < (113 << 23)) ? 0 : h;
h = (em >= (143 << 23)) ? 0x7c00 : h;
h = (em > (255 << 23)) ? 0x7e00 : h;
return (unsigned short)(s | h);
```
The only signed intermediate is `h` before the cascade of selections;
C's arithmetic right shift on `int` is floor division by `2^13`,
embedded with `Int.fdiv`. -/
def quantizeHalf (ui : ℕ) : ℕ :=
  let s : ℕ := (ui >>> 16) &&& 0x8000
  let em : ℕ := ui &&& 0x7fffffff
  let h0 : ℤ := Int.fdiv ((em : ℤ) - (112 * 2 ^ 23) + 2 ^ 12) (2 ^ 13)
  let h1 : ℤ := if em < 113 * 2 ^ 23 then 0 else h0
  let h2 : ℤ := if 143 * 2 ^ 23 ≤ em then 0x7c00 else h1
  let h3 : ℤ := if 255 * 2 ^ 23 < em then 0x7e00 else h2
  (s ||| h3.toNat) % 65536

/-- Sign bit of a binary32 pattern. -/
def sign32 (ui : ℕ) : ℕ := ui >>> 31

/-- Biased exponent field of a binary32 pattern. -/
def expField (ui : ℕ) : ℕ := (ui >>> 23) &&& 0xff

/-- Mantissa field of a binary32 pattern. -/
def mantField (ui : ℕ) : ℕ := ui &&& 0x7fffff

/-- Sign-less exponent-and-mantissa word, as the `em` local of
`quantizeHalf`. -/
def em32 (ui : ℕ) : ℕ := ui &&& 0x7fffffff

/-- Magnitude of the value of a (finite) binary32 pattern, in units of
`2^(-149)` (the smallest denormal).  For the pattern of `±∞`
(`expField = 255`, `mantField = 0`) this extends monotonically to a huge
value, which is convenient for stating overflow facts. -/
def mag32 (ui : ℕ) : ℕ :=
  if expField ui = 0 then mantField ui
  else (2 ^ 23 + mantField ui) * 2 ^ (expField ui - 1)

/-- Exact rational value denoted by a finite binary32 pattern. -/
def val32 (ui : ℕ) : ℚ :=
  (if sign32 ui = 1 then -(mag32 ui : ℚ) else (mag32 ui : ℚ)) / 2 ^ 149

/-- A 32-bit pattern encodes NaN iff its `em` word exceeds that of `+∞`. -/
def isNaN32 (ui : ℕ) : Prop := 255 * 2 ^ 23 < em32 ui

instance : DecidablePred isNaN32 := fun ui => by
  unfold isNaN32; infer_instance

/-! ## Spec-side reference definitions (from the spec's words, for the
refinement comparisons of the quantization claims) -/

/-- From the spec's words: clamp a value to `[0, 1]`. -/
def clamp01 (v : ℚ) : ℚ := min (max v 0) 1

/-- From the spec's words: clamp a value to `[-1, 1]`. -/
def clampS (v : ℚ) : ℚ := min (max v (-1)) 1

/-- From the spec's words: round half away from zero. -/
def roundAway (q : ℚ) : ℤ := if q < 0 then -⌊-q + 1/2⌋ else ⌊q + 1/2⌋

/-- From the spec's words: `quantizeUnorm(v, bits)` "clamps to [0,1] and
returns `round(v * (2^bits - 1))`", with exact (real-number) arithmetic. -/
def specUnorm (v : ℚ) (bits : ℕ) : ℤ := round (clamp01 v * ((2 ^ bits - 1 : ℕ) : ℚ))

/-- From the spec's words: `quantizeSnorm(v, bits)` "clamps to [-1,1] and
returns `round(v * (2^(bits-1) - 1))` with round-half-away-from-zero",
with exact (real-number) arithmetic. -/
def specSnorm (v : ℚ) (bits : ℕ) : ℤ :=
  roundAway (clampS v * ((2 ^ (bits - 1) - 1 : ℕ) : ℚ))

/-- Value-ordering key of a non-NaN binary32 pattern: IEEE `<=` on two
non-NaN floats compares these keys (both zeroes have key `0`;
infinities sort above/below all finite values). -/
def sKey (ui : ℕ) : ℤ := if sign32 ui = 1 then -(em32 ui : ℤ) else (em32 ui : ℤ)

/-- IEEE-754 `<=` on two non-NaN binary32 bit patterns. -/
def fleBits (a b : ℕ) : Prop := sKey a ≤ sKey b

instance : DecidableRel fleBits := fun a b => by unfold fleBits; infer_instance

/-! ## Evaluation and error lemmas for `rne`/`rnd32` -/

theorem rne_intCast (n : ℤ) : rne (n : ℚ) = n := by
  unfold rne
  simp

theorem abs_rne_sub_le (q : ℚ) : |(rne q : ℚ) - q| ≤ 1/2 := by
  have h0 : (⌊q⌋ : ℚ) ≤ q := Int.floor_le q
  have h1 : q < ⌊q⌋ + 1 := Int.lt_floor_add_one q
  unfold rne
  split_ifs with hc1 hc2 hc3 <;>
    (rw [abs_le]; push_cast; constructor <;> linarith)

theorem floor_eq_of {q : ℚ} {n : ℤ} (h1 : (n : ℚ) ≤ q) (h2 : q < n + 1) : ⌊q⌋ = n :=
  Int.floor_eq_iff.mpr ⟨h1, h2⟩

theorem rne_of_lt_half {q : ℚ} {n : ℤ} (h1 : (n : ℚ) ≤ q) (h2 : q < n + 1/2) :
    rne q = n := by
  have hf : ⌊q⌋ = n := floor_eq_of h1 (by linarith)
  unfold rne
  rw [hf, if_pos (by linarith)]

theorem rne_of_gt_half {q : ℚ} {n : ℤ} (h1 : (n : ℚ) + 1/2 < q) (h2 : q < n + 1) :
    rne q = n + 1 := by
  have hf : ⌊q⌋ = n := floor_eq_of (by linarith) h2
  unfold rne
  rw [hf, if_neg (by linarith), if_pos (by linarith)]

theorem rne_add_half (n : ℤ) : rne ((n : ℚ) + 1/2) = if Even n then n else n + 1 := by
  have hf : ⌊(n : ℚ) + 1/2⌋ = n := floor_eq_of (by linarith) (by linarith)
  unfold rne
  rw [hf]
  norm_num

theorem log2_eq_of {q : ℚ} {e : ℤ} (h1 : (2:ℚ) ^ e ≤ q) (h2 : q < 2 ^ (e + 1)) :
    Int.log 2 q = e := by
  have hq : (0:ℚ) < q := lt_of_lt_of_le (by positivity) h1
  have hl : e ≤ Int.log 2 q := by
    have hb : ((2:ℕ):ℚ) = (2:ℚ) := by norm_num
    have h := @Int.log_mono_right ℚ _ _ 2 (((2:ℕ):ℚ) ^ e) q (by rw [hb]; positivity)
      (by rw [hb]; exact h1)
    rwa [Int.log_zpow (by norm_num : 1 < 2)] at h
  have hr : Int.log 2 q < e + 1 := by
    rw [← Int.lt_zpow_iff_log_lt (by norm_num : 1 < 2) hq]
    exact_mod_cast h2
  omega

theorem uexp_eq_of {q : ℚ} {e : ℤ} (h3 : -149 ≤ e)
    (h1 : (2:ℚ) ^ (e + 23) ≤ |q|) (h2 : |q| < 2 ^ (e + 24)) : uexp q = e := by
  have hlog : Int.log 2 |q| = e + 23 := log2_eq_of h1 (by rwa [show e + 23 + 1 = e + 24 by ring])
  unfold uexp
  rw [hlog]
  omega

theorem rnd32_eval {q : ℚ} {e n : ℤ} (h3 : -149 ≤ e)
    (h1 : (2:ℚ) ^ (e + 23) ≤ |q|) (h2 : |q| < 2 ^ (e + 24))
    (hn : rne (q / 2 ^ e) = n) : rnd32 q = (n : ℚ) * 2 ^ e := by
  have hq : q ≠ 0 := by
    intro h
    rw [h, abs_zero] at h1
    exact absurd h1 (not_le.mpr (by positivity))
  rw [rnd32, if_neg hq, uexp_eq_of h3 h1 h2, hn]

theorem rnd32_zero : rnd32 0 = 0 := by simp [rnd32]

theorem rnd32_fix (m : ℤ) (d : ℕ) (hd : d ≤ 149) (hm : m.natAbs < 2 ^ 24) :
    rnd32 ((m : ℚ) / 2 ^ d) = (m : ℚ) / 2 ^ d := by
  rcases eq_or_ne m 0 with rfl | hm0
  · simp [rnd32]
  have hq : (m : ℚ) / 2 ^ d ≠ 0 :=
    div_ne_zero (by exact_mod_cast hm0) (by positivity)
  have hmq : |(m : ℚ)| < 2 ^ 24 := by
    rw [← Int.cast_abs]
    rw [Int.abs_eq_natAbs]
    exact_mod_cast hm
  have habs : |(m : ℚ) / 2 ^ d| < 2 ^ ((24 : ℤ) - d) := by
    rw [abs_div, abs_of_pos (by positivity : (0:ℚ) < 2 ^ d),
      zpow_sub₀ (by norm_num : (2:ℚ) ≠ 0), zpow_natCast]
    apply div_lt_div_of_pos_right ?_ (by positivity)
    · rw [show ((24:ℤ)) = ((24:ℕ):ℤ) by norm_num, zpow_natCast]
      exact hmq
  have hlog : Int.log 2 |(m : ℚ) / 2 ^ d| < 24 - d := by
    rw [← Int.lt_zpow_iff_log_lt (by norm_num : 1 < 2) (abs_pos.mpr hq)]
    exact_mod_cast habs
  have he : uexp ((m : ℚ) / 2 ^ d) ≤ -(d : ℤ) := by
    unfold uexp
    omega
  set e := uexp ((m : ℚ) / 2 ^ d) with hedef
  have he149 : -149 ≤ e := le_max_right _ _
  obtain ⟨c, hc⟩ : ∃ c : ℕ, e = -(d : ℤ) - c := ⟨(-(d : ℤ) - e).toNat, by omega⟩
  have hinv : (2:ℚ) ^ e * 2 ^ (d + c) = 1 := by
    rw [hc, ← zpow_natCast (2:ℚ) (d + c), ← zpow_add₀ (by norm_num : (2:ℚ) ≠ 0)]
    rw [show (-(d:ℤ) - c + (d + c : ℕ)) = 0 by push_cast; ring]
    exact zpow_zero 2
  have hinv2 : ((2:ℚ) ^ e)⁻¹ = 2 ^ (d + c) := inv_eq_of_mul_eq_one_right hinv
  have key : (m : ℚ) / 2 ^ d / 2 ^ e = ((m * 2 ^ c : ℤ) : ℚ) := by
    rw [div_eq_mul_inv _ ((2:ℚ) ^ e), hinv2]
    push_cast
    rw [pow_add]
    field_simp
    ring
  rw [rnd32, if_neg hq, ← hedef, key, rne_intCast]
  push_cast
  rw [hc, sub_eq_add_neg, zpow_add₀ (by norm_num : (2:ℚ) ≠ 0), zpow_neg, zpow_neg,
    zpow_natCast, zpow_natCast]
  field_simp
  ring

theorem abs_rnd32_sub_le {q : ℚ} (h : |q| < 2 ^ 23) : |rnd32 q - q| ≤ 1/4 := by
  rcases eq_or_ne q 0 with rfl | hq
  · rw [rnd32_zero]
    norm_num
  have hlog : Int.log 2 |q| < 23 := by
    rw [← Int.lt_zpow_iff_log_lt (by norm_num : 1 < 2) (abs_pos.mpr hq)]
    exact_mod_cast h
  have he : uexp q ≤ -1 := by
    unfold uexp
    omega
  set e := uexp q with hedef
  have h2e : (0:ℚ) < 2 ^ e := by positivity
  have step : rnd32 q - q = ((rne (q / 2 ^ e) : ℚ) - q / 2 ^ e) * 2 ^ e := by
    rw [rnd32, if_neg hq, ← hedef]
    field_simp
  rw [step, abs_mul, abs_of_pos h2e]
  calc |(rne (q / 2 ^ e) : ℚ) - q / 2 ^ e| * 2 ^ e
      ≤ (1/2) * 2 ^ (-1 : ℤ) := by
        apply mul_le_mul (abs_rne_sub_le _) (zpow_le_zpow_right₀ one_le_two he)
          (by positivity) (by norm_num)
    _ = 1/4 := by
        rw [zpow_neg, zpow_one]
        norm_num

theorem abs_floor_sub_le {a b : ℚ} (h : |a - b| ≤ 1/2) : |(⌊a⌋ - ⌊b⌋ : ℤ)| ≤ 1 := by
  obtain ⟨h1, h2⟩ := abs_le.mp h
  have hu : ⌊a⌋ ≤ ⌊b⌋ + 1 := by
    have : ⌊a⌋ ≤ ⌊b + 1⌋ := Int.floor_le_floor (by linarith)
    rwa [show b + 1 = b + ((1:ℤ):ℚ) by norm_num, Int.floor_add_int] at this
  have hl : ⌊b⌋ - 1 ≤ ⌊a⌋ := by
    have : ⌊b + (-1:ℤ)⌋ ≤ ⌊a⌋ := Int.floor_le_floor (by push_cast; linarith)
    rwa [Int.floor_add_int] at this
  rw [abs_le]
  omega

/-! ## Unfolding the quantizers through the comparison ladder -/

theorem fge_fin (a b : ℚ) : fge (F32.fin a) (F32.fin b) = decide (b ≤ a) := rfl

theorem fle_fin (a b : ℚ) : fle (F32.fin a) (F32.fin b) = decide (a ≤ b) := rfl

theorem fmul_fin (a b : ℚ) : fmul (F32.fin a) (F32.fin b) = F32.fin (rnd32 (a * b)) := rfl

theorem fadd_fin (a b : ℚ) : fadd (F32.fin a) (F32.fin b) = F32.fin (rnd32 (a + b)) := rfl

theorem fge_nan (x : F32) : fge F32.nan x = false := by cases x <;> rfl

theorem quantizeUnorm_fin (v : ℚ) (bits : ℕ) :
    quantizeUnorm (F32.fin v) bits =
      ftrunc (F32.fin (rnd32 (rnd32 (clamp01 v * rnd32 ((2 ^ bits - 1 : ℕ) : ℚ)) + 1/2))) := by
  have hsh : ((1 <<< bits) - 1 : ℕ) = (2 ^ bits - 1 : ℕ) := by rw [Nat.one_shiftLeft]
  simp only [quantizeUnorm, hsh, fge_fin, decide_eq_true_eq]
  rcases le_or_lt 0 v with h0 | h0
  · rw [if_pos h0]
    simp only [fle_fin, decide_eq_true_eq]
    rcases le_or_lt v 1 with h1 | h1
    · have hc : clamp01 v = v := by rw [clamp01, max_eq_left h0, min_eq_left h1]
      rw [if_pos h1, hc, fmul_fin, fadd_fin]
    · have hc : clamp01 v = 1 := by
        rw [clamp01, max_eq_left h0, min_eq_right h1.le]
      rw [if_neg (not_le.mpr h1), hc, fmul_fin, fadd_fin]
  · rw [if_neg (not_le.mpr h0)]
    simp only [fle_fin, decide_eq_true_eq]
    have hc : clamp01 v = 0 := by
      rw [clamp01, max_eq_right h0.le, min_eq_left (by norm_num : (0:ℚ) ≤ 1)]
    rw [if_pos (by norm_num : (0:ℚ) ≤ 1), hc, fmul_fin, fadd_fin]

theorem quantizeSnorm_fin (v : ℚ) (bits : ℕ) :
    quantizeSnorm (F32.fin v) bits =
      ftrunc (F32.fin (rnd32 (rnd32 (clampS v * rnd32 ((2 ^ (bits - 1) - 1 : ℕ) : ℚ)) +
        (if 0 ≤ v then 1/2 else -(1/2))))) := by
  have hsh : ((1 <<< (bits - 1)) - 1 : ℕ) = (2 ^ (bits - 1) - 1 : ℕ) := by
    rw [Nat.one_shiftLeft]
  simp only [quantizeSnorm, hsh, fge_fin, decide_eq_true_eq]
  rcases le_or_lt 0 v with h0 | h0
  · have hm1 : (-1 : ℚ) ≤ v := by linarith
    rw [if_pos h0, if_pos hm1, if_pos h0]
    simp only [fle_fin, decide_eq_true_eq]
    rcases le_or_lt v 1 with h1 | h1
    · have hc : clampS v = v := by rw [clampS, max_eq_left hm1, min_eq_left h1]
      rw [if_pos h1, hc, fmul_fin, fadd_fin]
    · have hc : clampS v = 1 := by rw [clampS, max_eq_left hm1, min_eq_right h1.le]
      rw [if_neg (not_le.mpr h1), hc, fmul_fin, fadd_fin]
  · rw [if_neg (not_le.mpr h0), if_neg (not_le.mpr h0)]
    rcases le_or_lt (-1 : ℚ) v with hm1 | hm1
    · have h1 : v ≤ 1 := by linarith
      have hc : clampS v = v := by rw [clampS, max_eq_left hm1, min_eq_left h1]
      rw [if_pos hm1]
      simp only [fle_fin, decide_eq_true_eq]
      rw [if_pos h1, hc, fmul_fin, fadd_fin]
    · have hc : clampS v = -1 := by
        rw [clampS, max_eq_right hm1.le, min_eq_left (by norm_num : (-1:ℚ) ≤ 1)]
      rw [if_neg (not_le.mpr hm1)]
      simp only [fle_fin, decide_eq_true_eq]
      rw [if_pos (by norm_num : (-1:ℚ) ≤ 1), hc, fmul_fin, fadd_fin]

theorem rnd32_half : rnd32 (1/2 : ℚ) = 1/2 := by
  have h := rnd32_fix 1 1 (by norm_num) (by norm_num)
  norm_num at h
  exact h

theorem quantizeUnorm_nan (bits : ℕ) : quantizeUnorm F32.nan bits = 0 := by
  simp only [quantizeUnorm, fge_nan, Bool.false_eq_true, if_false]
  simp only [fle_fin, decide_eq_true_eq]
  rw [if_pos (by norm_num : (0:ℚ) ≤ 1), fmul_fin, fadd_fin,
    zero_mul, rnd32_zero, zero_add, rnd32_half]
  rw [ftrunc, if_neg (by norm_num)]
  exact floor_eq_of (by norm_num) (by norm_num)

theorem quantizeSnorm_nan (bits : ℕ) :
    quantizeSnorm F32.nan bits =
      ftrunc (F32.fin (rnd32 (rnd32 (-1 * rnd32 ((2 ^ (bits - 1) - 1 : ℕ) : ℚ)) + -(1/2)))) := by
  have hsh : ((1 <<< (bits - 1)) - 1 : ℕ) = (2 ^ (bits - 1) - 1 : ℕ) := by
    rw [Nat.one_shiftLeft]
  simp only [quantizeSnorm, hsh, fge_nan, Bool.false_eq_true, if_false]
  simp only [fle_fin, decide_eq_true_eq]
  rw [if_pos (by norm_num : (-1:ℚ) ≤ 1), fmul_fin, fadd_fin]

/-! ## Double-rounding error bound for the fixed-point quantizers -/

theorem rnd32_int (n : ℤ) (h : n.natAbs < 2 ^ 24) : rnd32 (n : ℚ) = (n : ℚ) := by
  have h0 := rnd32_fix n 0 (by norm_num) h
  rwa [pow_zero, div_one] at h0

theorem rnd32_half_int (n : ℤ) (h : n.natAbs < 2 ^ 24) : rnd32 ((n : ℚ) / 2) = (n : ℚ) / 2 := by
  have h0 := rnd32_fix n 1 (by norm_num) h
  rwa [pow_one] at h0

theorem ftrunc_fin_nonneg {q : ℚ} (h : 0 ≤ q) : ftrunc (F32.fin q) = ⌊q⌋ := by
  rw [ftrunc, if_neg (not_lt.mpr h)]

theorem ftrunc_fin_nonpos {q : ℚ} (h : q ≤ 0) : ftrunc (F32.fin q) = ⌈q⌉ := by
  rcases lt_or_eq_of_le h with h0 | h0
  · rw [ftrunc, if_pos h0]
  · subst h0
    rw [ftrunc, if_neg (by norm_num)]
    norm_num

theorem abs_ceil_sub_le {a b : ℚ} (h : |a - b| ≤ 1/2) : |(⌈a⌉ - ⌈b⌉ : ℤ)| ≤ 1 := by
  obtain ⟨h1, h2⟩ := abs_le.mp h
  have hu : ⌈a⌉ ≤ ⌈b⌉ + 1 := by
    have h3 : ⌈a⌉ ≤ ⌈b + (1:ℤ)⌉ := Int.ceil_le_ceil (by push_cast; linarith)
    rwa [Int.ceil_add_int] at h3
  have hl : ⌈b⌉ - 1 ≤ ⌈a⌉ := by
    have h3 : ⌈b + (-1:ℤ)⌉ ≤ ⌈a⌉ := Int.ceil_le_ceil (by push_cast; linarith)
    rwa [Int.ceil_add_int] at h3
  rw [abs_le]
  omega

theorem roundAway_nonneg {p : ℚ} (hp : 0 ≤ p) : roundAway p = ⌊p + 1/2⌋ := by
  rw [roundAway, if_neg (not_lt.mpr hp)]

theorem roundAway_nonpos {p : ℚ} (hp : p ≤ 0) : roundAway p = ⌈p - 1/2⌉ := by
  rcases lt_or_eq_of_le hp with h0 | h0
  · rw [roundAway, if_pos h0]
    rw [show p - 1/2 = -(-p + 1/2) by ring, Int.ceil_neg]
  · subst h0
    rw [roundAway, if_neg (by norm_num)]
    rw [show ((0:ℚ) + 1/2) = 1/2 by ring, show ((0:ℚ) - 1/2) = -(1/2) by ring]
    rw [floor_eq_of (show ((0:ℤ):ℚ) ≤ 1/2 by norm_num) (by norm_num)]
    rw [Int.ceil_neg, floor_eq_of (show ((0:ℤ):ℚ) ≤ 1/2 by norm_num) (by norm_num)]
    omega

theorem double_round_floor_bound {x s : ℚ} (hx0 : 0 ≤ x) (hs0 : 0 ≤ s)
    (hp : x * s ≤ 2 ^ 23 - 1) :
    |ftrunc (F32.fin (rnd32 (rnd32 (x * s) + 1/2))) - ⌊x * s + 1/2⌋| ≤ 1 := by
  set p := x * s with hpdef
  have hp0 : 0 ≤ p := mul_nonneg hx0 hs0
  have e1 := abs_rnd32_sub_le (show |p| < 2 ^ 23 by rw [abs_of_nonneg hp0]; linarith)
  obtain ⟨e1l, e1r⟩ := abs_le.mp e1
  set t1 := rnd32 p with ht1def
  have e2 := abs_rnd32_sub_le (show |t1 + 1/2| < 2 ^ 23 by
    rw [abs_lt]; constructor <;> linarith)
  obtain ⟨e2l, e2r⟩ := abs_le.mp e2
  set t2 := rnd32 (t1 + 1/2) with ht2def
  have e3 : |t2 - (p + 1/2)| ≤ 1/2 := by
    rw [show t2 - (p + 1/2) = (t2 - (t1 + 1/2)) + (t1 - p) by ring]
    calc |(t2 - (t1 + 1/2)) + (t1 - p)| ≤ |t2 - (t1 + 1/2)| + |t1 - p| := abs_add _ _
      _ ≤ 1/2 := by linarith
  have ht2 : 0 ≤ t2 := by
    obtain ⟨e3l, _⟩ := abs_le.mp e3
    linarith
  rw [ftrunc_fin_nonneg ht2]
  exact abs_floor_sub_le e3

theorem double_round_ceil_bound {x s : ℚ} (hx0 : x ≤ 0) (hs0 : 0 ≤ s)
    (hp : -(2 ^ 23 - 1) ≤ x * s) :
    |ftrunc (F32.fin (rnd32 (rnd32 (x * s) + -(1/2)))) - ⌈x * s - 1/2⌉| ≤ 1 := by
  set p := x * s with hpdef
  have hp0 : p ≤ 0 := mul_nonpos_of_nonpos_of_nonneg hx0 hs0
  have e1 := abs_rnd32_sub_le (show |p| < 2 ^ 23 by
    rw [abs_lt]; constructor <;> linarith)
  obtain ⟨e1l, e1r⟩ := abs_le.mp e1
  set t1 := rnd32 p with ht1def
  have e2 := abs_rnd32_sub_le (show |t1 + -(1/2)| < 2 ^ 23 by
    rw [abs_lt]; constructor <;> linarith)
  obtain ⟨e2l, e2r⟩ := abs_le.mp e2
  set t2 := rnd32 (t1 + -(1/2)) with ht2def
  have e3 : |t2 - (p - 1/2)| ≤ 1/2 := by
    rw [show t2 - (p - 1/2) = (t2 - (t1 + -(1/2))) + (t1 - p) by ring]
    calc |(t2 - (t1 + -(1/2))) + (t1 - p)| ≤ |t2 - (t1 + -(1/2))| + |t1 - p| := abs_add _ _
      _ ≤ 1/2 := by linarith
  have ht2 : t2 ≤ 0 := by
    obtain ⟨_, e3r⟩ := abs_le.mp e3
    linarith
  rw [ftrunc_fin_nonpos ht2]
  exact abs_ceil_sub_le e3

theorem scale_fix (bits : ℕ) (h : bits ≤ 24) :
    rnd32 ((2 ^ bits - 1 : ℕ) : ℚ) = ((2 ^ bits - 1 : ℕ) : ℚ) := by
  have hlt : (2 ^ bits - 1 : ℕ) < 2 ^ 24 := by
    have := Nat.pow_le_pow_right (show 0 < 2 by norm_num) h
    omega
  have h0 := rnd32_int ((2 ^ bits - 1 : ℕ) : ℤ) (by rw [Int.natAbs_ofNat]; exact hlt)
  push_cast at h0 ⊢
  exact h0

theorem clamp01_nonneg (v : ℚ) : 0 ≤ clamp01 v :=
  le_min (le_max_right v 0) zero_le_one

theorem clamp01_le_one (v : ℚ) : clamp01 v ≤ 1 := min_le_right _ _

/-- The claim as stated (exact real-number rounding after clamping) fails,
but the code is never more than one step away from it:
`quantizeUnorm` differs from `round(clamp(v,0,1) * (2^bits-1))` by at most 1,
and it is exact on the spec's 8-bit test vectors. -/
theorem quantizeUnorm_within_one_of_spec :
    (∀ (v : ℚ) (bits : ℕ), 1 ≤ bits → bits ≤ 23 →
      |quantizeUnorm (F32.fin v) bits - specUnorm v bits| ≤ 1) ∧
    quantizeUnorm (F32.fin 0) 8 = 0 ∧
    quantizeUnorm (F32.fin 1) 8 = 255 ∧
    quantizeUnorm (F32.fin (1/2)) 8 = 128 := by
  have hs8 : rnd32 ((2 ^ 8 - 1 : ℕ) : ℚ) = (255 : ℚ) := by
    rw [scale_fix 8 (by norm_num)]
    norm_num
  refine ⟨?_, ?_, ?_, ?_⟩
  · intro v bits hb1 hb23
    rw [quantizeUnorm_fin, scale_fix bits (by omega), specUnorm, round_eq]
    have hs0 : (0:ℚ) ≤ ((2 ^ bits - 1 : ℕ) : ℚ) := Nat.cast_nonneg _
    have hsle : ((2 ^ bits - 1 : ℕ) : ℚ) ≤ 2 ^ 23 - 1 := by
      have h1 : (2 ^ bits - 1 : ℕ) ≤ (2 ^ 23 - 1 : ℕ) := by
        have := Nat.pow_le_pow_right (show 0 < 2 by norm_num) hb23
        omega
      calc ((2 ^ bits - 1 : ℕ) : ℚ) ≤ ((2 ^ 23 - 1 : ℕ) : ℚ) := Nat.cast_le.mpr h1
        _ = 2 ^ 23 - 1 := by norm_num
    have hp : clamp01 v * ((2 ^ bits - 1 : ℕ) : ℚ) ≤ 2 ^ 23 - 1 := by
      calc clamp01 v * ((2 ^ bits - 1 : ℕ) : ℚ) ≤ 1 * ((2 ^ bits - 1 : ℕ) : ℚ) :=
            mul_le_mul_of_nonneg_right (clamp01_le_one v) hs0
        _ = ((2 ^ bits - 1 : ℕ) : ℚ) := one_mul _
        _ ≤ 2 ^ 23 - 1 := hsle
    exact double_round_floor_bound (clamp01_nonneg v) hs0 hp
  · rw [quantizeUnorm_fin, hs8, show clamp01 0 = 0 by rw [clamp01]; norm_num,
      zero_mul, rnd32_zero, zero_add, rnd32_half, ftrunc_fin_nonneg (by norm_num)]
    exact floor_eq_of (by norm_num) (by norm_num)
  · have h511 : rnd32 ((255 : ℚ) + 1/2) = 511/2 := by
      have h0 := rnd32_half_int 511 (by norm_num)
      rw [show (((511:ℤ):ℚ)/2) = (511:ℚ)/2 by norm_num] at h0
      rw [show ((255:ℚ) + 1/2) = 511/2 by norm_num, h0]
    have h255 : rnd32 (255 : ℚ) = 255 := by
      have h0 := rnd32_int 255 (by norm_num)
      rwa [show (((255:ℤ):ℚ)) = (255:ℚ) by norm_num] at h0
    rw [quantizeUnorm_fin, hs8, show clamp01 1 = 1 by rw [clamp01]; norm_num,
      one_mul, h255, h511, ftrunc_fin_nonneg (by norm_num)]
    exact floor_eq_of (by norm_num) (by norm_num)
  · have hhalf : rnd32 ((1:ℚ)/2 * 255) = 255/2 := by
      have h0 := rnd32_half_int 255 (by norm_num)
      rw [show (((255:ℤ):ℚ)/2) = (255:ℚ)/2 by norm_num] at h0
      rw [show ((1:ℚ)/2 * 255) = 255/2 by norm_num, h0]
    have h128 : rnd32 ((255:ℚ)/2 + 1/2) = 128 := by
      have h0 := rnd32_int 128 (by norm_num)
      rw [show (((128:ℤ):ℚ)) = (128:ℚ) by norm_num] at h0
      rw [show ((255:ℚ)/2 + 1/2) = 128 by norm_num, h0]
    rw [quantizeUnorm_fin, hs8, show clamp01 (1/2) = 1/2 by rw [clamp01]; norm_num,
      hhalf, h128, ftrunc_fin_nonneg (by norm_num)]
    exact floor_eq_of (by norm_num) (by norm_num)

/-- Counterexample to the exact-rounding reading of the unorm claim:
`v = 65793/2^25` (a representable binary32, bit pattern `0x3B008080`)
has `v * 255 = 16777215/2^25`, just below `1/2`, but the float addition
of `0.5f` rounds the sum `1 - 2^-25` up to `1.0f` (a tie, broken to even),
so the code returns `1` while exact rounding returns `0`. -/
theorem quantizeUnorm_exact_rounding_cex :
    rnd32 (65793/33554432 : ℚ) = (65793/33554432 : ℚ) ∧
    quantizeUnorm (F32.fin (65793/33554432)) 8 = 1 ∧
    specUnorm (65793/33554432) 8 = 0 := by
  have hvfix : rnd32 (65793/33554432 : ℚ) = (65793/33554432 : ℚ) := by
    have h0 := rnd32_fix 65793 25 (by norm_num) (by norm_num)
    rw [show (((65793:ℤ):ℚ)/2^25) = (65793/33554432 : ℚ) by norm_num] at h0
    exact h0
  refine ⟨hvfix, ?_, ?_⟩
  · have hs8 : rnd32 ((2 ^ 8 - 1 : ℕ) : ℚ) = (255 : ℚ) := by
      rw [scale_fix 8 (by norm_num)]
      norm_num
    have hc : clamp01 (65793/33554432) = 65793/33554432 := by
      rw [clamp01]
      norm_num
    have hprod : (65793/33554432 : ℚ) * 255 = 16777215/33554432 := by norm_num
    have ht1 : rnd32 (16777215/33554432 : ℚ) = 16777215/33554432 := by
      have h0 := rnd32_fix 16777215 25 (by norm_num) (by norm_num)
      rw [show (((16777215:ℤ):ℚ)/2^25) = (16777215/33554432 : ℚ) by norm_num] at h0
      exact h0
    have ht2 : rnd32 (16777215/33554432 + 1/2 : ℚ) = 1 := by
      have hev : rne ((33554431 : ℚ)/2) = 16777216 := by
        rw [show ((33554431:ℚ)/2) = ((16777215:ℤ):ℚ) + 1/2 by norm_num, rne_add_half,
          if_neg (by decide : ¬ Even (16777215:ℤ))]
        norm_num
      have h0 : rnd32 (33554431/33554432 : ℚ) = ((16777216:ℤ):ℚ) * 2 ^ (-24 : ℤ) := by
        apply rnd32_eval (by norm_num) ?_ ?_ ?_
        · rw [show ((-24:ℤ) + 23) = (-1 : ℤ) by norm_num]
          rw [abs_of_pos (by norm_num : (0:ℚ) < 33554431/33554432)]
          rw [zpow_neg, zpow_one]
          norm_num
        · rw [show ((-24:ℤ) + 24) = (0 : ℤ) by norm_num]
          rw [abs_of_pos (by norm_num : (0:ℚ) < 33554431/33554432)]
          rw [zpow_zero]
          norm_num
        · rw [show ((33554431:ℚ)/33554432 / 2 ^ (-24:ℤ)) = (33554431:ℚ)/2 by
            rw [zpow_neg]
            norm_num]
          exact hev
      rw [show (16777215/33554432 + 1/2 : ℚ) = 33554431/33554432 by norm_num, h0]
      rw [zpow_neg]
      norm_num
    rw [quantizeUnorm_fin, hs8, hc, hprod, ht1, ht2, ftrunc_fin_nonneg (by norm_num)]
    exact floor_eq_of (by norm_num) (by norm_num)
  · rw [specUnorm, round_eq]
    have hc : clamp01 (65793/33554432) = 65793/33554432 := by
      rw [clamp01]
      norm_num
    rw [hc, show ((2^8 - 1 : ℕ) : ℚ) = 255 by norm_num,
      show ((65793:ℚ)/33554432 * 255 + 1/2) = 33554431/33554432 by norm_num]
    exact floor_eq_of (by norm_num) (by norm_num)

/-- Correct rounding cannot overshoot a half-integer bound from below:
half-integers below `2^23` lie on every rounding grid used there. -/
theorem rnd32_le_half_int {q : ℚ} (m : ℤ) (hq : |q| < 2 ^ 23) (h : q ≤ (m : ℚ) / 2) :
    rnd32 q ≤ (m : ℚ) / 2 := by
  rcases eq_or_ne q 0 with rfl | hq0
  · rw [rnd32_zero]
    exact h
  have hlog : Int.log 2 |q| < 23 := by
    rw [← Int.lt_zpow_iff_log_lt (by norm_num : 1 < 2) (abs_pos.mpr hq0)]
    exact_mod_cast hq
  have he : uexp q ≤ -1 := by
    unfold uexp
    omega
  have he149 : -149 ≤ uexp q := le_max_right _ _
  set e := uexp q with hedef
  obtain ⟨k, hk⟩ : ∃ k : ℕ, e = -1 - (k : ℤ) := ⟨(-1 - e).toNat, by omega⟩
  have h2e : (0:ℚ) < 2 ^ e := by positivity
  have hinv : (2:ℚ) ^ e * 2 ^ (k + 1) = 1 := by
    rw [hk, ← zpow_natCast (2:ℚ) (k + 1), ← zpow_add₀ (by norm_num : (2:ℚ) ≠ 0),
      show (-1 - (k:ℤ) + (k + 1 : ℕ)) = 0 by push_cast; ring, zpow_zero]
  have hinv2 : ((2:ℚ) ^ e)⁻¹ = 2 ^ (k + 1) := inv_eq_of_mul_eq_one_right hinv
  have hbe : ((m : ℚ) / 2) / 2 ^ e = ((m * 2 ^ k : ℤ) : ℚ) := by
    rw [div_eq_mul_inv _ ((2:ℚ) ^ e), hinv2]
    push_cast
    rw [pow_succ]
    ring
  have hx : q / 2 ^ e ≤ ((m * 2 ^ k : ℤ) : ℚ) := by
    rw [← hbe]
    gcongr
  obtain ⟨hl, hr⟩ := abs_le.mp (abs_rne_sub_le (q / 2 ^ e))
  have hrne : rne (q / 2 ^ e) ≤ m * 2 ^ k := by
    have h2 : (rne (q / 2 ^ e) : ℚ) < ((m * 2 ^ k : ℤ) : ℚ) + 1 := by linarith
    have h3 : rne (q / 2 ^ e) < m * 2 ^ k + 1 := by exact_mod_cast h2
    omega
  rw [rnd32, if_neg hq0, ← hedef]
  calc (rne (q / 2 ^ e) : ℚ) * 2 ^ e ≤ ((m * 2 ^ k : ℤ) : ℚ) * 2 ^ e :=
        mul_le_mul_of_nonneg_right (by exact_mod_cast hrne) h2e.le
    _ = (m : ℚ) / 2 := by
        rw [← hbe]
        exact div_mul_cancel₀ _ (ne_of_gt h2e)

/-- Correct rounding cannot undershoot a half-integer bound from above. -/
theorem rnd32_ge_half_int {q : ℚ} (m : ℤ) (hq : |q| < 2 ^ 23) (h : (m : ℚ) / 2 ≤ q) :
    (m : ℚ) / 2 ≤ rnd32 q := by
  rcases eq_or_ne q 0 with rfl | hq0
  · rw [rnd32_zero]
    exact h
  have hlog : Int.log 2 |q| < 23 := by
    rw [← Int.lt_zpow_iff_log_lt (by norm_num : 1 < 2) (abs_pos.mpr hq0)]
    exact_mod_cast hq
  have he : uexp q ≤ -1 := by
    unfold uexp
    omega
  have he149 : -149 ≤ uexp q := le_max_right _ _
  set e := uexp q with hedef
  obtain ⟨k, hk⟩ : ∃ k : ℕ, e = -1 - (k : ℤ) := ⟨(-1 - e).toNat, by omega⟩
  have h2e : (0:ℚ) < 2 ^ e := by positivity
  have hinv : (2:ℚ) ^ e * 2 ^ (k + 1) = 1 := by
    rw [hk, ← zpow_natCast (2:ℚ) (k + 1), ← zpow_add₀ (by norm_num : (2:ℚ) ≠ 0),
      show (-1 - (k:ℤ) + (k + 1 : ℕ)) = 0 by push_cast; ring, zpow_zero]
  have hinv2 : ((2:ℚ) ^ e)⁻¹ = 2 ^ (k + 1) := inv_eq_of_mul_eq_one_right hinv
  have hbe : ((m : ℚ) / 2) / 2 ^ e = ((m * 2 ^ k : ℤ) : ℚ) := by
    rw [div_eq_mul_inv _ ((2:ℚ) ^ e), hinv2]
    push_cast
    rw [pow_succ]
    ring
  have hx : ((m * 2 ^ k : ℤ) : ℚ) ≤ q / 2 ^ e := by
    rw [← hbe]
    gcongr
  obtain ⟨hl, hr⟩ := abs_le.mp (abs_rne_sub_le (q / 2 ^ e))
  have hrne : m * 2 ^ k ≤ rne (q / 2 ^ e) := by
    have h2 : ((m * 2 ^ k : ℤ) : ℚ) - 1 < (rne (q / 2 ^ e) : ℚ) := by linarith
    have h3 : m * 2 ^ k - 1 < rne (q / 2 ^ e) := by exact_mod_cast h2
    omega
  rw [rnd32, if_neg hq0, ← hedef]
  calc (m : ℚ) / 2 = ((m * 2 ^ k : ℤ) : ℚ) * 2 ^ e := by
        rw [← hbe]
        exact (div_mul_cancel₀ _ (ne_of_gt h2e)).symm
    _ ≤ (rne (q / 2 ^ e) : ℚ) * 2 ^ e :=
        mul_le_mul_of_nonneg_right (by exact_mod_cast hrne) h2e.le

/-- The snorm output range: rounding never escapes the asymmetric
codeword range `[-(2^(bits-1)-1), 2^(bits-1)-1]`, because the scale and
the half-integers `scale + 1/2`, `-(scale + 1/2)` are on the rounding
grid and bound the two intermediate roundings. -/
theorem quantizeSnorm_range_aux (v : ℚ) (bits : ℕ) (hb24 : bits ≤ 24) :
    -(((2 ^ (bits - 1) - 1 : ℕ) : ℤ)) ≤ quantizeSnorm (F32.fin v) bits ∧
      quantizeSnorm (F32.fin v) bits ≤ ((2 ^ (bits - 1) - 1 : ℕ) : ℤ) := by
  rw [quantizeSnorm_fin, scale_fix (bits - 1) (by omega)]
  set n := (2 ^ (bits - 1) - 1 : ℕ) with hndef
  have hn23 : n ≤ 2 ^ 23 - 1 := by
    have := Nat.pow_le_pow_right (show 0 < 2 by norm_num) (show bits - 1 ≤ 23 by omega)
    omega
  have hs0 : (0:ℚ) ≤ (n : ℚ) := Nat.cast_nonneg _
  have hsle : (n : ℚ) ≤ 2 ^ 23 - 1 := by
    calc (n : ℚ) ≤ ((2 ^ 23 - 1 : ℕ) : ℚ) := Nat.cast_le.mpr hn23
      _ = 2 ^ 23 - 1 := by norm_num
  have hcast2n : ((2 * (n : ℤ) : ℤ) : ℚ) / 2 = (n : ℚ) := by
    push_cast
    ring
  have hcast2n1 : ((2 * (n : ℤ) + 1 : ℤ) : ℚ) / 2 = (n : ℚ) + 1/2 := by
    push_cast
    ring
  have hcastm2n : ((-(2 * (n : ℤ)) : ℤ) : ℚ) / 2 = -(n : ℚ) := by
    push_cast
    ring
  have hcastm2n1 : ((-(2 * (n : ℤ) + 1) : ℤ) : ℚ) / 2 = -((n : ℚ) + 1/2) := by
    push_cast
    ring
  have hcast0 : (((0 : ℤ)) : ℚ) / 2 = 0 := by norm_num
  have hcast1 : (((1 : ℤ)) : ℚ) / 2 = 1/2 := by norm_num
  have hcastm1 : (((-1 : ℤ)) : ℚ) / 2 = -(1/2) := by norm_num
  rcases le_or_lt 0 v with h0 | h0
  · rw [if_pos h0]
    have hx0 : 0 ≤ clampS v :=
      le_min (le_trans h0 (le_max_left v (-1))) zero_le_one
    have hx1 : clampS v ≤ 1 := min_le_right _ _
    set p := clampS v * (n : ℚ) with hpdef
    have hp0 : 0 ≤ p := mul_nonneg hx0 hs0
    have hpn : p ≤ (n : ℚ) := by
      calc p ≤ 1 * (n : ℚ) := mul_le_mul_of_nonneg_right hx1 hs0
        _ = (n : ℚ) := one_mul _
    have hpabs : |p| < 2 ^ 23 := by
      rw [abs_of_nonneg hp0]
      linarith
    have ht1u : rnd32 p ≤ (n : ℚ) := by
      have := rnd32_le_half_int (2 * (n : ℤ)) hpabs (by rw [hcast2n]; exact hpn)
      rwa [hcast2n] at this
    have ht1l : (0:ℚ) ≤ rnd32 p := by
      have := rnd32_ge_half_int 0 hpabs (by rw [hcast0]; exact hp0)
      rwa [hcast0] at this
    have ht15abs : |rnd32 p + 1/2| < 2 ^ 23 := by
      rw [abs_lt]
      constructor <;> linarith
    have ht2u : rnd32 (rnd32 p + 1/2) ≤ (n : ℚ) + 1/2 := by
      have := rnd32_le_half_int (2 * (n : ℤ) + 1) ht15abs
        (by rw [hcast2n1]; linarith)
      rwa [hcast2n1] at this
    have ht2l : (1:ℚ)/2 ≤ rnd32 (rnd32 p + 1/2) := by
      have := rnd32_ge_half_int 1 ht15abs (by rw [hcast1]; linarith)
      rwa [hcast1] at this
    rw [ftrunc_fin_nonneg (by linarith)]
    constructor
    · have hfl : (0:ℤ) ≤ ⌊rnd32 (rnd32 p + 1/2)⌋ := Int.le_floor.mpr (by push_cast; linarith)
      have : (0:ℤ) ≤ (n : ℤ) := Int.natCast_nonneg n
      omega
    · have hfl : ⌊rnd32 (rnd32 p + 1/2)⌋ < (n : ℤ) + 1 := Int.floor_lt.mpr (by push_cast; linarith)
      omega
  · rw [if_neg (not_le.mpr h0)]
    have hx0 : clampS v ≤ 0 :=
      le_trans (min_le_left _ _) (max_le h0.le (by norm_num))
    have hxm1 : -1 ≤ clampS v :=
      le_min (le_max_right v (-1)) (by norm_num)
    set p := clampS v * (n : ℚ) with hpdef
    have hp0 : p ≤ 0 := mul_nonpos_of_nonpos_of_nonneg hx0 hs0
    have hpn : -(n : ℚ) ≤ p := by
      have h1 : (-1 : ℚ) * (n : ℚ) ≤ p := mul_le_mul_of_nonneg_right hxm1 hs0
      rwa [neg_one_mul] at h1
    have hpabs : |p| < 2 ^ 23 := by
      rw [abs_lt]
      constructor <;> linarith
    have ht1u : rnd32 p ≤ 0 := by
      have := rnd32_le_half_int 0 hpabs (by rw [hcast0]; exact hp0)
      rwa [hcast0] at this
    have ht1l : -(n : ℚ) ≤ rnd32 p := by
      have := rnd32_ge_half_int (-(2 * (n : ℤ))) hpabs (by rw [hcastm2n]; exact hpn)
      rwa [hcastm2n] at this
    have ht15abs : |rnd32 p + -(1/2)| < 2 ^ 23 := by
      rw [abs_lt]
      constructor <;> linarith
    have ht2u : rnd32 (rnd32 p + -(1/2)) ≤ -(1/2) := by
      have := rnd32_le_half_int (-1) ht15abs (by rw [hcastm1]; linarith)
      rwa [hcastm1] at this
    have ht2l : -((n : ℚ) + 1/2) ≤ rnd32 (rnd32 p + -(1/2)) := by
      have := rnd32_ge_half_int (-(2 * (n : ℤ) + 1)) ht15abs
        (by rw [hcastm2n1]; linarith)
      rwa [hcastm2n1] at this
    rw [ftrunc_fin_nonpos (by linarith)]
    constructor
    · have hcl : -(n : ℤ) - 1 < ⌈rnd32 (rnd32 p + -(1/2))⌉ :=
        Int.lt_ceil.mpr (by push_cast; linarith)
      omega
    · have hcl : ⌈rnd32 (rnd32 p + -(1/2))⌉ ≤ 0 := Int.ceil_le.mpr (by push_cast; linarith)
      have : (0:ℤ) ≤ (n : ℤ) := Int.natCast_nonneg n
      omega

/-- The claim as stated (exact real-number round-half-away after clamping)
fails for the same double-rounding reason as the unorm case, but
`quantizeSnorm` is within 1 of `clamp(v,-1,1) * (2^(bits-1)-1)` rounded
half away from zero, it is exact on the spec's 8-bit test vectors, and
its output range is the asymmetric `[-(2^(bits-1)-1), 2^(bits-1)-1]`
(the extra negative codeword `-2^(bits-1)` is never produced). -/
theorem quantizeSnorm_within_one_of_spec :
    (∀ (v : ℚ) (bits : ℕ), 2 ≤ bits → bits ≤ 24 →
      |quantizeSnorm (F32.fin v) bits - specSnorm v bits| ≤ 1) ∧
    quantizeSnorm (F32.fin 0) 8 = 0 ∧
    quantizeSnorm (F32.fin 1) 8 = 127 ∧
    quantizeSnorm (F32.fin (-1)) 8 = -127 ∧
    (∀ (v : ℚ) (bits : ℕ), 2 ≤ bits → bits ≤ 24 →
      -(((2 ^ (bits - 1) - 1 : ℕ) : ℤ)) ≤ quantizeSnorm (F32.fin v) bits ∧
      quantizeSnorm (F32.fin v) bits ≤ ((2 ^ (bits - 1) - 1 : ℕ) : ℤ)) := by
  have hs8 : rnd32 ((2 ^ (8 - 1) - 1 : ℕ) : ℚ) = (127 : ℚ) := by
    rw [scale_fix 7 (by norm_num)]
    norm_num
  refine ⟨?_, ?_, ?_, ?_, fun v bits _ hb24 => quantizeSnorm_range_aux v bits hb24⟩
  · intro v bits hb2 hb24
    rw [quantizeSnorm_fin, scale_fix (bits - 1) (by omega), specSnorm]
    have hs0 : (0:ℚ) ≤ ((2 ^ (bits - 1) - 1 : ℕ) : ℚ) := Nat.cast_nonneg _
    have hsle : ((2 ^ (bits - 1) - 1 : ℕ) : ℚ) ≤ 2 ^ 23 - 1 := by
      have h1 : (2 ^ (bits - 1) - 1 : ℕ) ≤ (2 ^ 23 - 1 : ℕ) := by
        have := Nat.pow_le_pow_right (show 0 < 2 by norm_num) (show bits - 1 ≤ 23 by omega)
        omega
      calc ((2 ^ (bits - 1) - 1 : ℕ) : ℚ) ≤ ((2 ^ 23 - 1 : ℕ) : ℚ) := Nat.cast_le.mpr h1
        _ = 2 ^ 23 - 1 := by norm_num
    rcases le_or_lt 0 v with h0 | h0
    · rw [if_pos h0]
      have hx0 : 0 ≤ clampS v :=
        le_min (le_trans h0 (le_max_left v (-1))) zero_le_one
      have hx1 : clampS v ≤ 1 := min_le_right _ _
      have hp : clampS v * ((2 ^ (bits - 1) - 1 : ℕ) : ℚ) ≤ 2 ^ 23 - 1 := by
        calc clampS v * ((2 ^ (bits - 1) - 1 : ℕ) : ℚ)
            ≤ 1 * ((2 ^ (bits - 1) - 1 : ℕ) : ℚ) := mul_le_mul_of_nonneg_right hx1 hs0
          _ = ((2 ^ (bits - 1) - 1 : ℕ) : ℚ) := one_mul _
          _ ≤ 2 ^ 23 - 1 := hsle
      rw [roundAway_nonneg (mul_nonneg hx0 hs0)]
      exact double_round_floor_bound hx0 hs0 hp
    · rw [if_neg (not_le.mpr h0)]
      have hx0 : clampS v ≤ 0 :=
        le_trans (min_le_left _ _) (max_le h0.le (by norm_num))
      have hxm1 : -1 ≤ clampS v :=
        le_min (le_max_right v (-1)) (by norm_num)
      have hp : -(2 ^ 23 - 1) ≤ clampS v * ((2 ^ (bits - 1) - 1 : ℕ) : ℚ) := by
        have h1 : (-1 : ℚ) * ((2 ^ (bits - 1) - 1 : ℕ) : ℚ) ≤
            clampS v * ((2 ^ (bits - 1) - 1 : ℕ) : ℚ) :=
          mul_le_mul_of_nonneg_right hxm1 hs0
        rw [neg_one_mul] at h1
        linarith
      rw [roundAway_nonpos (mul_nonpos_of_nonpos_of_nonneg hx0 hs0)]
      exact double_round_ceil_bound hx0 hs0 hp
  · rw [quantizeSnorm_fin, hs8, show clampS 0 = 0 by rw [clampS]; norm_num,
      if_pos (le_refl (0:ℚ)), zero_mul, rnd32_zero, zero_add, rnd32_half,
      ftrunc_fin_nonneg (by norm_num)]
    exact floor_eq_of (by norm_num) (by norm_num)
  · have h127 : rnd32 (127 : ℚ) = 127 := by
      have h0 := rnd32_int 127 (by norm_num)
      rwa [show (((127:ℤ):ℚ)) = (127:ℚ) by norm_num] at h0
    have h255 : rnd32 ((127 : ℚ) + 1/2) = 255/2 := by
      have h0 := rnd32_half_int 255 (by norm_num)
      rw [show (((255:ℤ):ℚ)/2) = (255:ℚ)/2 by norm_num] at h0
      rw [show ((127:ℚ) + 1/2) = 255/2 by norm_num, h0]
    rw [quantizeSnorm_fin, hs8, show clampS 1 = 1 by rw [clampS]; norm_num,
      if_pos (by norm_num : (0:ℚ) ≤ 1), one_mul, h127, h255,
      ftrunc_fin_nonneg (by norm_num)]
    exact floor_eq_of (by norm_num) (by norm_num)
  · have h127 : rnd32 (-127 : ℚ) = -127 := by
      have h0 := rnd32_int (-127) (by norm_num)
      rwa [show (((-127:ℤ):ℚ)) = (-127:ℚ) by norm_num] at h0
    have h255 : rnd32 ((-127 : ℚ) + -(1/2)) = -(255/2) := by
      have h0 := rnd32_fix (-255) 1 (by norm_num) (by norm_num)
      rw [show ((((-255):ℤ):ℚ)/2^1) = -((255:ℚ)/2) by norm_num] at h0
      rw [show ((-127:ℚ) + -(1/2)) = -(255/2) by norm_num, h0]
    rw [quantizeSnorm_fin, hs8, show clampS (-1) = -1 by rw [clampS]; norm_num,
      if_neg (by norm_num : ¬ (0:ℚ) ≤ -1), show ((-1:ℚ)) * 127 = -127 by norm_num,
      h127, h255, ftrunc_fin_nonpos (by norm_num)]
    rw [Int.ceil_neg, floor_eq_of (show ((127:ℤ):ℚ) ≤ 255/2 by norm_num) (by norm_num)]

/-- Counterexample to the exact-rounding reading of the snorm claim:
`v = 2113665/2^29` (binary32 pattern `0x3B810204`) has
`v * 127 = (2^28-1)/2^29`, just below `1/2`; the float product rounds up
to exactly `0.5f` and adding `0.5f` gives `1.0f`, so the code returns `1`
while exact round-half-away returns `0`. -/
theorem quantizeSnorm_exact_rounding_cex :
    rnd32 (2113665/536870912 : ℚ) = (2113665/536870912 : ℚ) ∧
    quantizeSnorm (F32.fin (2113665/536870912)) 8 = 1 ∧
    specSnorm (2113665/536870912) 8 = 0 := by
  have hvfix : rnd32 (2113665/536870912 : ℚ) = (2113665/536870912 : ℚ) := by
    have h0 := rnd32_fix 2113665 29 (by norm_num) (by norm_num)
    rw [show (((2113665:ℤ):ℚ)/2^29) = (2113665/536870912 : ℚ) by norm_num] at h0
    exact h0
  have hc : clampS (2113665/536870912) = 2113665/536870912 := by
    rw [clampS]
    norm_num
  have hprod : (2113665/536870912 : ℚ) * 127 = 268435455/536870912 := by norm_num
  refine ⟨hvfix, ?_, ?_⟩
  · have hs8 : rnd32 ((2 ^ (8 - 1) - 1 : ℕ) : ℚ) = (127 : ℚ) := by
      rw [scale_fix 7 (by norm_num)]
      norm_num
    have ht1 : rnd32 (268435455/536870912 : ℚ) = 1/2 := by
      have h0 : rnd32 (268435455/536870912 : ℚ) = ((16777216:ℤ):ℚ) * 2 ^ (-25 : ℤ) := by
        apply rnd32_eval (by norm_num) ?_ ?_ ?_
        · rw [show ((-25:ℤ) + 23) = (-2 : ℤ) by norm_num,
            abs_of_pos (by norm_num : (0:ℚ) < 268435455/536870912), zpow_neg]
          norm_num
        · rw [show ((-25:ℤ) + 24) = (-1 : ℤ) by norm_num,
            abs_of_pos (by norm_num : (0:ℚ) < 268435455/536870912), zpow_neg]
          norm_num
        · rw [show ((268435455:ℚ)/536870912 / 2 ^ (-25:ℤ)) = (268435455:ℚ)/16 by
            rw [zpow_neg]
            norm_num]
          have := rne_of_gt_half (show ((16777215:ℤ):ℚ) + 1/2 < 268435455/16 by norm_num)
            (show (268435455:ℚ)/16 < (16777215:ℤ) + 1 by push_cast; norm_num)
          rw [this]
          norm_num
      rw [h0, zpow_neg]
      norm_num
    have ht2 : rnd32 ((1:ℚ)/2 + 1/2) = 1 := by
      have h0 := rnd32_int 1 (by norm_num)
      rw [show (((1:ℤ):ℚ)) = (1:ℚ) by norm_num] at h0
      rw [show ((1:ℚ)/2 + 1/2) = 1 by norm_num, h0]
    rw [quantizeSnorm_fin, hs8, hc, if_pos (by norm_num : (0:ℚ) ≤ 2113665/536870912),
      hprod, ht1, ht2, ftrunc_fin_nonneg (by norm_num)]
    exact floor_eq_of (by norm_num) (by norm_num)
  · rw [specSnorm, hc, show ((2^(8-1) - 1 : ℕ) : ℚ) = 127 by norm_num, hprod,
      roundAway_nonneg (by norm_num)]
    exact floor_eq_of (by norm_num) (by norm_num)

/-- NaN fails both clamp comparisons asymmetrically: `quantizeUnorm`
replaces it by `0` (so returns 0), while `quantizeSnorm` replaces it by
`-1` and picks the negative rounding constant (so returns the most
negative codeword `-(2^(bits-1)-1)`). -/
theorem quantize_nan_asymmetry :
    (∀ bits : ℕ, quantizeUnorm F32.nan bits = 0) ∧
    (∀ bits : ℕ, bits ≤ 24 → quantizeSnorm F32.nan bits = -((2 ^ (bits - 1) - 1 : ℕ) : ℤ)) := by
  constructor
  · exact quantizeUnorm_nan
  · intro bits hb
    have hn : (2 ^ (bits - 1) - 1 : ℕ) < 2 ^ 23 := by
      have := Nat.pow_le_pow_right (show 0 < 2 by norm_num) (show bits - 1 ≤ 23 by omega)
      omega
    rw [quantizeSnorm_nan, scale_fix (bits - 1) (by omega)]
    set n := (2 ^ (bits - 1) - 1 : ℕ) with hndef
    have h1 : rnd32 (-1 * (n : ℚ)) = -(n : ℚ) := by
      rw [neg_one_mul]
      have h0 := rnd32_int (-(n : ℤ)) (by
        rw [Int.natAbs_neg, Int.natAbs_ofNat]
        omega)
      push_cast at h0
      exact h0
    have h2 : rnd32 (-(n : ℚ) + -(1/2)) = -(n : ℚ) - 1/2 := by
      have h0 := rnd32_fix (-(2 * n + 1 : ℕ) : ℤ) 1 (by norm_num) (by
        rw [Int.natAbs_neg, Int.natAbs_ofNat]
        omega)
      rw [pow_one] at h0
      have heq : ((-(2 * n + 1 : ℕ) : ℤ) : ℚ) / 2 = -(n : ℚ) - 1/2 := by
        push_cast
        ring
      rw [heq] at h0
      rw [show (-(n : ℚ) + -(1/2)) = -(n : ℚ) - 1/2 by ring]
      exact h0
    have hnn : (0:ℚ) ≤ (n : ℚ) := Nat.cast_nonneg n
    rw [h1, h2, ftrunc_fin_nonpos (by linarith)]
    rw [show (-(n : ℚ) - 1/2) = -((n : ℚ) + 1/2) by ring, Int.ceil_neg]
    rw [show ((n : ℚ) + 1/2) = ((n : ℤ) : ℚ) + 1/2 by push_cast; ring]
    rw [show ⌊((n : ℤ) : ℚ) + 1/2⌋ = (n : ℤ) from
      floor_eq_of (by push_cast; linarith) (by push_cast; linarith)]

/-! ## Characterizing `quantizeHalf` over `ℕ` -/

theorem or_mod_65536 {s h : ℕ} (hs : s ≤ 0x8000) (hh : h ≤ 0x7e00) :
    (s ||| h) % 65536 = s ||| h := by
  apply Nat.mod_eq_of_lt
  have hor : s ||| h < 2 ^ 16 := Nat.or_lt_two_pow (by omega) (by omega)
  simpa using hor

theorem div_branch_le {em : ℕ} (h : em < 143 * 2 ^ 23) :
    (em + 2 ^ 12 - 112 * 2 ^ 23) / 2 ^ 13 ≤ 0x7c00 := by
  calc (em + 2 ^ 12 - 112 * 2 ^ 23) / 2 ^ 13 ≤ 260050943 / 2 ^ 13 :=
        Nat.div_le_div_right (by omega)
    _ = 0x7c00 := by norm_num

/-- Branch-level description of `quantizeHalf`, with the dead negative
value of the raw `h` eliminated and the final 16-bit cast dropped
(the value already fits). -/
theorem quantizeHalf_char (ui : ℕ) :
    quantizeHalf ui =
      ((ui >>> 16) &&& 0x8000) |||
        (if 255 * 2 ^ 23 < em32 ui then 0x7e00
         else if 143 * 2 ^ 23 ≤ em32 ui then 0x7c00
         else if em32 ui < 113 * 2 ^ 23 then 0
         else (em32 ui + 2 ^ 12 - 112 * 2 ^ 23) / 2 ^ 13) := by
  have hs : (ui >>> 16) &&& 0x8000 ≤ 0x8000 := Nat.and_le_right
  unfold quantizeHalf
  rw [show ui &&& 0x7fffffff = em32 ui from rfl]
  simp only []
  by_cases hnan : 255 * 2 ^ 23 < em32 ui
  · rw [if_pos hnan, if_pos hnan, show Int.toNat 32256 = 32256 from rfl]
    exact or_mod_65536 hs (by norm_num)
  · rw [if_neg hnan, if_neg hnan]
    by_cases hover : 143 * 2 ^ 23 ≤ em32 ui
    · rw [if_pos hover, if_pos hover, show Int.toNat 31744 = 31744 from rfl]
      exact or_mod_65536 hs (by norm_num)
    · rw [if_neg hover, if_neg hover]
      by_cases hunder : em32 ui < 113 * 2 ^ 23
      · rw [if_pos hunder, if_pos hunder, show Int.toNat 0 = 0 from rfl]
        exact or_mod_65536 hs (by norm_num)
      · rw [if_neg hunder, if_neg hunder]
        have hge : 113 * 2 ^ 23 ≤ em32 ui := by omega
        have hcast : ((em32 ui : ℤ) - 112 * 2 ^ 23 + 2 ^ 12) =
            ((em32 ui + 2 ^ 12 - 112 * 2 ^ 23 : ℕ) : ℤ) := by
          omega
        rw [hcast, show ((2:ℤ) ^ 13) = ((2 ^ 13 : ℕ) : ℤ) by norm_num, ← Int.ofNat_fdiv,
          Int.toNat_natCast]
        exact or_mod_65536 hs (le_trans (div_branch_le (by omega)) (by norm_num))

theorem em32_decomp (ui : ℕ) :
    em32 ui = expField ui * 2 ^ 23 + mantField ui ∧ expField ui ≤ 255 ∧
      mantField ui < 2 ^ 23 := by
  rw [em32, expField, mantField, Nat.shiftRight_eq_div_pow,
    show (0x7fffffff : ℕ) = 2 ^ 31 - 1 by norm_num,
    show (0xff : ℕ) = 2 ^ 8 - 1 by norm_num,
    show (0x7fffff : ℕ) = 2 ^ 23 - 1 by norm_num,
    Nat.and_pow_two_sub_one_eq_mod, Nat.and_pow_two_sub_one_eq_mod,
    Nat.and_pow_two_sub_one_eq_mod]
  omega

theorem em32_of_lt {ui : ℕ} (h : ui < 2 ^ 31) : em32 ui = ui := by
  rw [em32, show (0x7fffffff : ℕ) = 2 ^ 31 - 1 by norm_num,
    Nat.and_pow_two_sub_one_eq_mod]
  exact Nat.mod_eq_of_lt h

theorem sbits_eq_zero_of_lt {ui : ℕ} (h : ui < 2 ^ 31) : (ui >>> 16) &&& 0x8000 = 0 := by
  rw [show (0x8000 : ℕ) = 2 ^ 15 by norm_num, Nat.and_two_pow]
  have hbit : (ui >>> 16).testBit 15 = false := by
    apply Nat.testBit_lt_two_pow
    rw [Nat.shiftRight_eq_div_pow]
    omega
  rw [hbit]
  norm_num

theorem mag32_lt_iff_under (ui : ℕ) : mag32 ui < 2 ^ 135 ↔ em32 ui < 113 * 2 ^ 23 := by
  obtain ⟨hdec, hele, hmlt⟩ := em32_decomp ui
  rw [mag32, hdec]
  by_cases he : expField ui = 0
  · rw [if_pos he, he]
    constructor <;> intro <;> [omega; exact lt_of_lt_of_le hmlt (by norm_num)]
  · rw [if_neg he]
    constructor
    · intro hmag
      by_contra hge
      have he113 : 113 ≤ expField ui := by omega
      have h1 : (2:ℕ) ^ 112 ≤ 2 ^ (expField ui - 1) :=
        Nat.pow_le_pow_right (by norm_num) (by omega)
      have h3 : (2:ℕ) ^ 135 ≤ (2 ^ 23 + mantField ui) * 2 ^ (expField ui - 1) := by
        calc (2:ℕ) ^ 135 = 2 ^ 23 * 2 ^ 112 := by norm_num
          _ ≤ (2 ^ 23 + mantField ui) * 2 ^ (expField ui - 1) :=
            Nat.mul_le_mul (Nat.le_add_right _ _) h1
      exact absurd hmag (not_lt.mpr h3)
    · intro hem
      have he112 : expField ui ≤ 112 := by omega
      have h1 : (2:ℕ) ^ (expField ui - 1) ≤ 2 ^ 111 :=
        Nat.pow_le_pow_right (by norm_num) (by omega)
      calc (2 ^ 23 + mantField ui) * 2 ^ (expField ui - 1)
          ≤ (2 ^ 23 + mantField ui) * 2 ^ 111 := Nat.mul_le_mul_left _ h1
        _ < 2 ^ 24 * 2 ^ 111 :=
          (Nat.mul_lt_mul_right (by norm_num : (0:ℕ) < 2 ^ 111)).mpr (by omega)
        _ = 2 ^ 135 := by norm_num

theorem mag32_ge_iff_over (ui : ℕ) : 2 ^ 165 ≤ mag32 ui ↔ 143 * 2 ^ 23 ≤ em32 ui := by
  obtain ⟨hdec, hele, hmlt⟩ := em32_decomp ui
  rw [mag32, hdec]
  by_cases he : expField ui = 0
  · rw [if_pos he, he]
    constructor <;> intro h
    · exact absurd h (not_le.mpr (lt_of_lt_of_le hmlt (by norm_num)))
    · omega
  · rw [if_neg he]
    constructor
    · intro hmag
      by_contra hlt
      have he142 : expField ui ≤ 142 := by omega
      have h1 : (2:ℕ) ^ (expField ui - 1) ≤ 2 ^ 141 :=
        Nat.pow_le_pow_right (by norm_num) (by omega)
      have h3 : (2 ^ 23 + mantField ui) * 2 ^ (expField ui - 1) < 2 ^ 165 := by
        calc (2 ^ 23 + mantField ui) * 2 ^ (expField ui - 1)
            ≤ (2 ^ 23 + mantField ui) * 2 ^ 141 := Nat.mul_le_mul_left _ h1
          _ < 2 ^ 24 * 2 ^ 141 :=
            (Nat.mul_lt_mul_right (by norm_num : (0:ℕ) < 2 ^ 141)).mpr (by omega)
          _ = 2 ^ 165 := by norm_num
      exact absurd hmag (not_le.mpr h3)
    · intro hem
      have he143 : 143 ≤ expField ui := by omega
      have h1 : (2:ℕ) ^ 142 ≤ 2 ^ (expField ui - 1) :=
        Nat.pow_le_pow_right (by norm_num) (by omega)
      calc (2:ℕ) ^ 165 = 2 ^ 23 * 2 ^ 142 := by norm_num
        _ ≤ (2 ^ 23 + mantField ui) * 2 ^ (expField ui - 1) :=
          Nat.mul_le_mul (Nat.le_add_right _ _) h1

theorem abs_val32 (ui : ℕ) : |val32 ui| = (mag32 ui : ℚ) / 2 ^ 149 := by
  rw [val32]
  split_ifs with h
  · rw [abs_div, abs_neg, abs_of_nonneg (Nat.cast_nonneg _),
      abs_of_pos (by positivity : (0:ℚ) < 2 ^ 149)]
  · rw [abs_div, abs_of_nonneg (Nat.cast_nonneg _),
      abs_of_pos (by positivity : (0:ℚ) < 2 ^ 149)]

theorem val32_lt_iff_under (ui : ℕ) :
    |val32 ui| < (2:ℚ) ^ (-14 : ℤ) ↔ em32 ui < 113 * 2 ^ 23 := by
  rw [abs_val32, ← mag32_lt_iff_under]
  have hpow : (2:ℚ) ^ (-14 : ℤ) = ((2 ^ 135 : ℕ) : ℚ) / 2 ^ 149 := by
    rw [show ((2 ^ 135 : ℕ) : ℚ) = (2:ℚ) ^ (135:ℕ) by push_cast; ring,
      eq_div_iff (by positivity : ((2:ℚ) ^ 149) ≠ 0),
      ← zpow_natCast (2:ℚ) 149, ← zpow_natCast (2:ℚ) 135,
      ← zpow_add₀ (by norm_num : (2:ℚ) ≠ 0)]
    norm_num
  rw [hpow, div_lt_div_iff_of_pos_right (by positivity : (0:ℚ) < 2 ^ 149)]
  exact_mod_cast Iff.rfl

theorem val32_ge_iff_over (ui : ℕ) :
    (2:ℚ) ^ 16 ≤ |val32 ui| ↔ 143 * 2 ^ 23 ≤ em32 ui := by
  rw [abs_val32, ← mag32_ge_iff_over]
  have hpow : (2:ℚ) ^ 16 = ((2 ^ 165 : ℕ) : ℚ) / 2 ^ 149 := by
    rw [show ((2 ^ 165 : ℕ) : ℚ) = (2:ℚ) ^ (165:ℕ) by push_cast; ring,
      eq_div_iff (by positivity : ((2:ℚ) ^ 149) ≠ 0), ← pow_add]
  rw [hpow, div_le_div_iff_of_pos_right (by positivity : (0:ℚ) < 2 ^ 149)]
  exact_mod_cast Iff.rfl

theorem val32_eval (ui sg mg : ℕ) (hs : sign32 ui = sg) (hm : mag32 ui = mg) :
    val32 ui = (if sg = 1 then -(mg : ℚ) else (mg : ℚ)) / 2 ^ 149 := by
  rw [val32, hs, hm]

/-! ## Theorems for the claims about `quantizeHalf` -/

/-- C1: `quantizeHalf` hits the spec's test vectors exactly.  Each
conjunct pairs the output of `quantizeHalf` on a bit pattern with a
certification that the pattern denotes the test value: `0x3F800000` is
`1.0f`, `0xC0000000` is `-2.0f`, `0x477FE000` is `65504.0f`,
`0x2EDBE6FF` is `float(1e-10)` (the binary32 nearest `10^-10`),
`0x60AD78EC` is `float(1e20)`, and `0x7FC00000` is the canonical
positive quiet NaN. -/
theorem quantizeHalf_test_vectors :
    (quantizeHalf 0x00000000 = 0x0000 ∧ val32 0x00000000 = 0) ∧
    (quantizeHalf 0x3F800000 = 0x3C00 ∧ val32 0x3F800000 = 1) ∧
    (quantizeHalf 0xC0000000 = 0xC000 ∧ val32 0xC0000000 = -2) ∧
    (quantizeHalf 0x477FE000 = 0x7BFF ∧ val32 0x477FE000 = 65504) ∧
    (quantizeHalf 0x2EDBE6FF = 0x0000 ∧ rnd32 (1/10^10) = val32 0x2EDBE6FF) ∧
    (quantizeHalf 0x60AD78EC = 0x7C00 ∧ rnd32 (10^20) = val32 0x60AD78EC) ∧
    (quantizeHalf 0x7FC00000 = 0x7E00 ∧ isNaN32 0x7FC00000 ∧ sign32 0x7FC00000 = 0) := by
  refine ⟨⟨by decide, ?_⟩, ⟨by decide, ?_⟩, ⟨by decide, ?_⟩, ⟨by decide, ?_⟩,
    ⟨by decide, ?_⟩, ⟨by decide, ?_⟩, ⟨by decide, by decide, by decide⟩⟩
  · rw [val32_eval 0x00000000 0 0 (by decide) (by decide)]
    norm_num
  · rw [val32_eval 0x3F800000 0 (2 ^ 149) (by decide) (by decide)]
    norm_num
  · rw [val32_eval 0xC0000000 1 (2 ^ 150) (by decide) (by decide)]
    norm_num
  · rw [val32_eval 0x477FE000 0 (16769024 * 2 ^ 141) (by decide) (by decide)]
    push_cast
    rw [div_eq_iff (by positivity : ((2:ℚ) ^ 149) ≠ 0)]
    norm_num
  · have hv : val32 0x2EDBE6FF = 14411519 / 2 ^ 57 := by
      rw [val32_eval 0x2EDBE6FF 0 (14411519 * 2 ^ 92) (by decide) (by decide)]
      push_cast
      rw [div_eq_div_iff (by positivity) (by positivity)]
      norm_num
    have hr : rnd32 ((1:ℚ)/10^10) = ((14411519:ℤ):ℚ) * 2 ^ (-57 : ℤ) := by
      apply rnd32_eval (by norm_num) ?_ ?_ ?_
      · rw [show ((-57:ℤ) + 23) = (-34 : ℤ) by norm_num,
          abs_of_pos (by norm_num : (0:ℚ) < 1/10^10), zpow_neg]
        rw [show ((2:ℚ) ^ (34:ℤ)) = ((2:ℚ) ^ (34:ℕ)) from zpow_natCast 2 34]
        norm_num
      · rw [show ((-57:ℤ) + 24) = (-33 : ℤ) by norm_num,
          abs_of_pos (by norm_num : (0:ℚ) < 1/10^10), zpow_neg]
        rw [show ((2:ℚ) ^ (33:ℤ)) = ((2:ℚ) ^ (33:ℕ)) from zpow_natCast 2 33]
        norm_num
      · rw [show ((1:ℚ)/10^10 / 2 ^ (-57:ℤ)) = (144115188075855872:ℚ)/10^10 by
          rw [zpow_neg]
          rw [show ((2:ℚ) ^ (57:ℤ)) = ((2:ℚ) ^ (57:ℕ)) from zpow_natCast 2 57]
          norm_num]
        have h0 := rne_of_gt_half
          (show ((14411518:ℤ):ℚ) + 1/2 < 144115188075855872/10^10 by norm_num)
          (show (144115188075855872:ℚ)/10^10 < (14411518:ℤ) + 1 by push_cast; norm_num)
        rw [h0]
        norm_num
    rw [hv, hr, zpow_neg]
    rw [show ((2:ℚ) ^ (57:ℤ)) = ((2:ℚ) ^ (57:ℕ)) from zpow_natCast 2 57]
    push_cast
    ring
  · have hv : val32 0x60AD78EC = 11368684 * 2 ^ 43 := by
      rw [val32_eval 0x60AD78EC 0 (11368684 * 2 ^ 192) (by decide) (by decide)]
      push_cast
      rw [div_eq_iff (by positivity : ((2:ℚ) ^ 149) ≠ 0)]
      norm_num
    have hr : rnd32 ((10:ℚ)^20) = ((11368684:ℤ):ℚ) * 2 ^ (43 : ℤ) := by
      apply rnd32_eval (by norm_num) ?_ ?_ ?_
      · rw [show ((43:ℤ) + 23) = (66 : ℤ) by norm_num,
          abs_of_pos (by norm_num : (0:ℚ) < 10^20)]
        rw [show ((2:ℚ) ^ (66:ℤ)) = ((2:ℚ) ^ (66:ℕ)) from zpow_natCast 2 66]
        norm_num
      · rw [show ((43:ℤ) + 24) = (67 : ℤ) by norm_num,
          abs_of_pos (by norm_num : (0:ℚ) < 10^20)]
        rw [show ((2:ℚ) ^ (67:ℤ)) = ((2:ℚ) ^ (67:ℕ)) from zpow_natCast 2 67]
        norm_num
      · rw [show ((10:ℚ)^20 / 2 ^ (43:ℤ)) = (100000000000000000000:ℚ)/8796093022208 by
          rw [show ((2:ℚ) ^ (43:ℤ)) = ((2:ℚ) ^ (43:ℕ)) from zpow_natCast 2 43]
          norm_num]
        have h0 := rne_of_gt_half
          (show ((11368683:ℤ):ℚ) + 1/2 < 100000000000000000000/8796093022208 by norm_num)
          (show (100000000000000000000:ℚ)/8796093022208 < (11368683:ℤ) + 1 by
            push_cast; norm_num)
        rw [h0]
        norm_num
    rw [hv, hr]
    rw [show ((2:ℚ) ^ (43:ℤ)) = ((2:ℚ) ^ (43:ℕ)) from zpow_natCast 2 43]
    push_cast
    ring

/-- Counterexample to C2 as stated: the negatively-signed quiet NaN
pattern `0xFFC00000` is a NaN, yet `quantizeHalf` keeps its sign bit and
returns `0xFE00`, not `0x7E00`. -/
theorem quantizeHalf_nan_sign_cex :
    isNaN32 0xFFC00000 ∧ quantizeHalf 0xFFC00000 = 0xFE00 ∧
      quantizeHalf 0xFFC00000 ≠ 0x7E00 := by
  refine ⟨by decide, by decide, by decide⟩

/-- C2 amended: on every NaN input `quantizeHalf` returns the input's
sign bit OR-ed onto the canonical quiet-NaN payload `0x7E00`; the result
is exactly `0x7E00` only for positive NaNs. -/
theorem quantizeHalf_nan_canonical :
    ∀ ui : ℕ, ui < 2 ^ 32 → isNaN32 ui →
      quantizeHalf ui = ((ui >>> 16) &&& 0x8000) ||| 0x7e00 := by
  intro ui _ hnan
  unfold isNaN32 at hnan
  rw [quantizeHalf_char, if_pos hnan]

theorem quantizeHalf_nan_canonical_witness :
    (0x7FC00000 < 2 ^ 32 ∧ isNaN32 0x7FC00000) ∧
      quantizeHalf 0x7FC00000 = ((0x7FC00000 >>> 16) &&& 0x8000) ||| 0x7e00 :=
  ⟨⟨by decide, by decide⟩, quantizeHalf_nan_canonical 0x7FC00000 (by decide) (by decide)⟩

/-- C5: for non-NaN inputs `quantizeHalf` carries the sign bit through
(bit 15 of the output equals bit 31 of the input), every finite value of
magnitude below `2^-14` (denormals included) maps to a zero magnitude
(the output is exactly the sign half-word), and every non-NaN value of
magnitude at least `2^16` (infinities included, via the monotone
extension of `val32`) maps to the signed infinity `sign | 0x7C00`. -/
theorem quantizeHalf_sign_and_thresholds :
    ∀ ui : ℕ, ui < 2 ^ 32 →
      (¬ isNaN32 ui → (quantizeHalf ui).testBit 15 = ui.testBit 31) ∧
      (expField ui < 255 → |val32 ui| < (2:ℚ) ^ (-14 : ℤ) →
        quantizeHalf ui = (ui >>> 16) &&& 0x8000) ∧
      (¬ isNaN32 ui → (2:ℚ) ^ 16 ≤ |val32 ui| →
        quantizeHalf ui = ((ui >>> 16) &&& 0x8000) ||| 0x7c00) := by
  intro ui _
  refine ⟨?_, ?_, ?_⟩
  · intro hnan
    unfold isNaN32 at hnan
    rw [quantizeHalf_char]
    have hh : (if 255 * 2 ^ 23 < em32 ui then 0x7e00
        else if 143 * 2 ^ 23 ≤ em32 ui then 0x7c00
        else if em32 ui < 113 * 2 ^ 23 then 0
        else (em32 ui + 2 ^ 12 - 112 * 2 ^ 23) / 2 ^ 13) < 2 ^ 15 := by
      rw [if_neg hnan]
      split_ifs with h1 h2
      · norm_num
      · norm_num
      · exact lt_of_le_of_lt (div_branch_le (by omega)) (by norm_num)
    rw [Nat.testBit_or, Nat.testBit_lt_two_pow hh, Bool.or_false,
      Nat.testBit_and, show Nat.testBit 0x8000 15 = true from by decide, Bool.and_true,
      Nat.testBit_shiftRight]
  · intro _ hlt
    have hem : em32 ui < 113 * 2 ^ 23 := (val32_lt_iff_under ui).mp hlt
    rw [quantizeHalf_char, if_neg (by omega), if_neg (by omega), if_pos hem, Nat.or_zero]
  · intro hnan hge
    unfold isNaN32 at hnan
    have hem : 143 * 2 ^ 23 ≤ em32 ui := (val32_ge_iff_over ui).mp hge
    rw [quantizeHalf_char, if_neg hnan, if_pos hem]

set_option exponentiation.threshold 300 in
theorem quantizeHalf_sign_and_thresholds_witness :
    ((0x3F800000 < 2 ^ 32 ∧ ¬ isNaN32 0x3F800000) ∧
      (quantizeHalf 0x3F800000).testBit 15 = Nat.testBit 0x3F800000 31) ∧
    ((0x00000001 < 2 ^ 32 ∧ expField 0x00000001 < 255 ∧
        |val32 0x00000001| < (2:ℚ) ^ (-14 : ℤ)) ∧
      quantizeHalf 0x00000001 = (0x00000001 >>> 16) &&& 0x8000) ∧
    ((0x7F800000 < 2 ^ 32 ∧ ¬ isNaN32 0x7F800000 ∧ (2:ℚ) ^ 16 ≤ |val32 0x7F800000|) ∧
      quantizeHalf 0x7F800000 = ((0x7F800000 >>> 16) &&& 0x8000) ||| 0x7c00) := by
  have hv1 : |val32 0x00000001| < (2:ℚ) ^ (-14 : ℤ) := by
    rw [val32_eval 0x00000001 0 1 (by decide) (by decide)]
    rw [abs_of_pos (by norm_num), zpow_neg]
    rw [show ((2:ℚ) ^ (14:ℤ)) = ((2:ℚ) ^ (14:ℕ)) from zpow_natCast 2 14]
    norm_num
  have hv2 : (2:ℚ) ^ 16 ≤ |val32 0x7F800000| := by
    rw [val32_eval 0x7F800000 0 (2 ^ 23 * 2 ^ 254) (by decide) (by decide),
      if_neg (by norm_num)]
    rw [abs_of_nonneg (by positivity)]
    rw [le_div_iff₀ (by positivity : (0:ℚ) < 2 ^ 149)]
    push_cast
    norm_num
  refine ⟨⟨⟨by decide, by decide⟩, ((quantizeHalf_sign_and_thresholds 0x3F800000
      (by decide)).1 (by decide))⟩,
    ⟨⟨by decide, by decide, hv1⟩, ((quantizeHalf_sign_and_thresholds 0x00000001
      (by decide)).2.1 (by decide) hv1)⟩,
    ⟨⟨by decide, by decide, hv2⟩, ((quantizeHalf_sign_and_thresholds 0x7F800000
      (by decide)).2.2 (by decide) hv2)⟩⟩

/-- Counterexample to C9 as stated: the claim quantifies over floats with
`0 <= a <= b` under IEEE comparison, which `-0.0` (pattern `0x80000000`)
satisfies with `b = +0.0`; but `quantizeHalf(-0.0) = 0x8000 > 0x0000 =
quantizeHalf(+0.0)` as unsigned 16-bit values. -/
theorem quantizeHalf_mono_cex :
    fleBits 0x00000000 0x80000000 ∧ fleBits 0x80000000 0x00000000 ∧
    ¬ isNaN32 0x80000000 ∧ ¬ isNaN32 0x00000000 ∧
    quantizeHalf 0x80000000 = 0x8000 ∧
    ¬ quantizeHalf 0x80000000 ≤ quantizeHalf 0x00000000 := by
  refine ⟨by decide, by decide, by decide, by decide, by decide, by decide⟩

/-- C9 amended: on bit patterns with a clear sign bit (all non-negative
floats except `-0.0`, up to and including `+∞`; NaN excluded), the
pattern order is the value order and `quantizeHalf` is monotone
non-decreasing on it: rounding carries overflow into the exponent and
the `0x7C00` overflow plateau rather than wrapping. -/
theorem quantizeHalf_mono_nonneg :
    ∀ ua ub : ℕ, ua ≤ ub → ub ≤ 0x7F800000 → quantizeHalf ua ≤ quantizeHalf ub := by
  intro ua ub hab hub
  have hua31 : ua < 2 ^ 31 := by omega
  have hub31 : ub < 2 ^ 31 := by omega
  rw [quantizeHalf_char, quantizeHalf_char, sbits_eq_zero_of_lt hua31,
    sbits_eq_zero_of_lt hub31, Nat.zero_or, Nat.zero_or, em32_of_lt hua31, em32_of_lt hub31]
  rw [if_neg (by omega : ¬ 255 * 2 ^ 23 < ub), if_neg (by omega : ¬ 255 * 2 ^ 23 < ua)]
  by_cases hbo : 143 * 2 ^ 23 ≤ ub
  · rw [if_pos hbo]
    by_cases hao : 143 * 2 ^ 23 ≤ ua
    · rw [if_pos hao]
    · rw [if_neg hao]
      by_cases hau : ua < 113 * 2 ^ 23
      · rw [if_pos hau]
        omega
      · rw [if_neg hau]
        exact div_branch_le (by omega)
  · have hao : ¬ 143 * 2 ^ 23 ≤ ua := by omega
    rw [if_neg hbo, if_neg hao]
    by_cases hau : ua < 113 * 2 ^ 23
    · rw [if_pos hau]
      exact Nat.zero_le _
    · rw [if_neg hau, if_neg (by omega : ¬ ub < 113 * 2 ^ 23)]
      exact Nat.div_le_div_right (by omega)

theorem quantizeHalf_mono_nonneg_witness :
    (0x3F800000 ≤ 0x40000000 ∧ (0x40000000:ℕ) ≤ 0x7F800000) ∧
      quantizeHalf 0x3F800000 ≤ quantizeHalf 0x40000000 :=
  ⟨⟨by decide, by decide⟩,
    quantizeHalf_mono_nonneg 0x3F800000 0x40000000 (by decide) (by decide)⟩

/-- C8: each quantization helper is a pure function of its arguments:
bitwise-equal arguments give bitwise-equal results.  The embedding
itself witnesses freedom from outside state: each routine was expressible
as a total function of exactly its arguments. -/
theorem quantize_deterministic :
    ∀ (v v' : F32) (b b' u u' : ℕ), v = v' → b = b' → u = u' →
      quantizeUnorm v b = quantizeUnorm v' b' ∧
      quantizeSnorm v b = quantizeSnorm v' b' ∧
      quantizeHalf u = quantizeHalf u' := by
  intro v v' b b' u u' hv hb hu
  subst hv
  subst hb
  subst hu
  exact ⟨rfl, rfl, rfl⟩

theorem quantize_deterministic_witness :
    (F32.fin 1 = F32.fin 1 ∧ 8 = 8 ∧ 0x3F800000 = 0x3F800000) ∧
      (quantizeUnorm (F32.fin 1) 8 = quantizeUnorm (F32.fin 1) 8 ∧
       quantizeSnorm (F32.fin 1) 8 = quantizeSnorm (F32.fin 1) 8 ∧
       quantizeHalf 0x3F800000 = quantizeHalf 0x3F800000) :=
  ⟨⟨rfl, rfl, rfl⟩,
    quantize_deterministic (F32.fin 1) (F32.fin 1) 8 8 0x3F800000 0x3F800000 rfl rfl rfl⟩

theorem quantizeUnorm_within_one_of_spec_witness :
    (1 ≤ 8 ∧ 8 ≤ 23) ∧
      |quantizeUnorm (F32.fin (1/3)) 8 - specUnorm (1/3) 8| ≤ 1 :=
  ⟨⟨by norm_num, by norm_num⟩,
    quantizeUnorm_within_one_of_spec.1 (1/3) 8 (by norm_num) (by norm_num)⟩

theorem quantizeSnorm_within_one_of_spec_witness :
    (2 ≤ 8 ∧ 8 ≤ 24) ∧
      |quantizeSnorm (F32.fin (-(1/3))) 8 - specSnorm (-(1/3)) 8| ≤ 1 ∧
      (-(((2 ^ (8 - 1) - 1 : ℕ) : ℤ)) ≤ quantizeSnorm (F32.fin (-(1/3))) 8 ∧
        quantizeSnorm (F32.fin (-(1/3))) 8 ≤ ((2 ^ (8 - 1) - 1 : ℕ) : ℤ)) :=
  ⟨⟨by norm_num, by norm_num⟩,
    quantizeSnorm_within_one_of_spec.1 (-(1/3)) 8 (by norm_num) (by norm_num),
    quantizeSnorm_within_one_of_spec.2.2.2.2 (-(1/3)) 8 (by norm_num) (by norm_num)⟩

theorem quantize_nan_asymmetry_witness :
    (8 ≤ 24) ∧ quantizeUnorm F32.nan 8 = 0 ∧
      quantizeSnorm F32.nan 8 = -((2 ^ (8 - 1) - 1 : ℕ) : ℤ) :=
  ⟨by norm_num, quantize_nan_asymmetry.1 8, quantize_nan_asymmetry.2 8 (by norm_num)⟩

/-! ## Mesh model: triangles, index buffers, well-formedness

The three optimizers (`optimizePostTransform`, `optimizeOverdraw`,
`optimizePreTransform`) are only declared in the header of this
repository snapshot; their bodies are described by the specification
(§4.2, §4.4, §4.6).  They are modelled below from the spec's words. -/

/-- A triangle as three vertex indices, in buffer order. -/
abbrev Tri := ℕ × ℕ × ℕ

def vertsOf (t : Tri) : List ℕ := [t.1, t.2.1, t.2.2]

def hasVert (t : Tri) (v : ℕ) : Bool := decide (v ∈ vertsOf t)

/-- Group an index buffer into consecutive triples. -/
def toTris : List ℕ → List Tri
  | a :: b :: c :: rest => (a, b, c) :: toTris rest
  | _ => []

/-- Flatten a triangle list back into an index buffer. -/
def flatTris (l : List Tri) : List ℕ := (l.map vertsOf).flatten

/-- A triangle as an unordered triple. -/
def triKey (t : Tri) : Multiset ℕ := {t.1, t.2.1, t.2.2}

/-- The multiset of unordered triangles of a triangle list. -/
def triMS (l : List Tri) : Multiset (Multiset ℕ) := (l.map triKey : List (Multiset ℕ))

/-- Well-formed index buffer: triangulated and in range (spec §3). -/
def wfIndices (indices : List ℕ) (vertex_count : ℕ) : Prop :=
  indices.length % 3 = 0 ∧ ∀ i ∈ indices, i < vertex_count

theorem toTris_flatTris : ∀ l : List Tri, toTris (flatTris l) = l := by
  intro l
  induction l with
  | nil => rfl
  | cons t rest ih =>
    obtain ⟨a, b, c⟩ := t
    simpa [flatTris, toTris, vertsOf] using ih

theorem triMS_of_perm {l₁ l₂ : List Tri} (h : l₁.Perm l₂) : triMS l₁ = triMS l₂ := by
  rw [triMS, triMS, Multiset.coe_eq_coe]
  exact h.map triKey

/-! ## `optimizePostTransform`: Tipsify model -/

/-- Number of not-yet-emitted triangles incident to a vertex
(the per-vertex live-triangle count of spec §4.2 step 2). -/
def live (rem : List Tri) (v : ℕ) : ℕ := (rem.filter (fun t => hasVert t v)).length

/-- State of the Tipsify walk: unemitted triangles in input order,
per-vertex timestamps, the clock, triangles written so far, and the
cluster boundaries recorded so far. -/
structure TipsifyState where
  remaining : List Tri
  stamps : ℕ → Option ℕ
  time : ℕ
  written : ℕ
  clusters : List ℕ

/-- Spec §4.2: a vertex is in cache iff
`(current_timestamp - its_timestamp) + 3 < cache_size`. -/
def cachedAt (cache_size : ℕ) (st : TipsifyState) (v : ℕ) : Bool :=
  match st.stamps v with
  | none => false
  | some ts => decide (st.time - ts + 3 < cache_size)

/-- Spec §4.2 step 4: priority = estimated cache position minus
2 x live-count penalty. -/
def priorityOf (st : TipsifyState) (v : ℕ) : ℤ :=
  ((st.time - (st.stamps v).getD 0 + 3 : ℕ) : ℤ) - 2 * (live st.remaining v : ℤ)

/-- Highest-priority element of a candidate list; the fold keeps the
earlier element on ties, so ties break toward the lowest vertex index
(spec §4.2 / §9 determinism). -/
def pickBest (pr : ℕ → ℤ) (cand : List ℕ) : Option ℕ :=
  cand.foldl (fun acc v =>
    match acc with
    | none => some v
    | some w => if pr w < pr v then some v else some w) none

/-- Modelled from the spec (§4.2 step 4): choose the next fanning vertex.
Cached candidates with live triangles are preferred by priority; failing
that, the cursor over the input vertex order picks the next vertex with
live triangles (this starts a new cluster).  Because live counts only
ever decrease, every vertex the spec's advancing cursor has passed is
exhausted for good, so the cursor's result is exactly the first vertex
in input order that still has live triangles, which is computed
directly here. -/
def pickFan (vertex_count cache_size : ℕ) (st : TipsifyState) : Option (ℕ × Bool) :=
  let cand := (List.range vertex_count).filter
    (fun v => cachedAt cache_size st v && decide (0 < live st.remaining v))
  match pickBest (priorityOf st) cand with
  | some f => some (f, false)
  | none =>
    match (List.range vertex_count).find? (fun v => decide (0 < live st.remaining v)) with
    | some f => some (f, true)
    | none => none

/-- Spec §4.2 step 5: emit all remaining live triangles incident to the
fanning vertex, in the order found; their vertices receive fresh
timestamps (one clock tick per emitted triangle). -/
def emitFan (f : ℕ) (st : TipsifyState) : List Tri × TipsifyState :=
  let fanned := st.remaining.filter (fun t => hasVert t f)
  let rest := st.remaining.filter (fun t => ! hasVert t f)
  let upd := fanned.foldl
    (fun (p : (ℕ → Option ℕ) × ℕ) t =>
      (fun v => if hasVert t v then some p.2 else p.1 v, p.2 + 1))
    (st.stamps, st.time)
  (fanned, ⟨rest, upd.1, upd.2, st.written + fanned.length, st.clusters⟩)

/-- The Tipsify outer loop.  Fuel is the number of triangles plus one;
each iteration emits at least one triangle, so the fuel never runs out
(the fuel-exhausted and no-candidate arms return the remaining
triangles unchanged, keeping the function total). -/
def tipsifyLoop (vertex_count cache_size : ℕ) : ℕ → TipsifyState → List Tri × List ℕ
  | 0, st => (st.remaining, st.clusters)
  | fuel + 1, st =>
    if st.remaining = [] then ([], st.clusters)
    else
      match pickFan vertex_count cache_size st with
      | none => (st.remaining, st.clusters)
      | some (f, isNew) =>
        let cl := if isNew then st.clusters ++ [st.written] else st.clusters
        let st1 : TipsifyState := ⟨st.remaining, st.stamps, st.time, st.written, cl⟩
        let step := emitFan f st1
        let r := tipsifyLoop vertex_count cache_size fuel step.2
        (step.1 ++ r.1, r.2)

/-- Modelled from the spec: `optimizePostTransform` (§4.2), the Tipsify
vertex-cache optimizer, whose body is not part of this repository
snapshot.  Returns the reordered index buffer and the cluster boundary
list (in triangles). -/
def optimizePostTransform (indices : List ℕ) (vertex_count cache_size : ℕ) :
    List ℕ × List ℕ :=
  let tris := toTris indices
  let r := tipsifyLoop vertex_count cache_size (tris.length + 1)
    ⟨tris, fun _ => none, 0, 0, []⟩
  (flatTris r.1, r.2)

theorem tipsifyLoop_perm (vertex_count cache_size : ℕ) :
    ∀ (fuel : ℕ) (st : TipsifyState),
      (tipsifyLoop vertex_count cache_size fuel st).1.Perm st.remaining := by
  intro fuel
  induction fuel with
  | zero => intro st; exact List.Perm.refl _
  | succ n ih =>
    intro st
    rw [tipsifyLoop]
    by_cases h : st.remaining = []
    · rw [if_pos h, h]
    · rw [if_neg h]
      rcases hp : pickFan vertex_count cache_size st with _ | ⟨f, isNew⟩
      · exact List.Perm.refl _
      · simp only []
        refine List.Perm.trans (List.Perm.append_left _ (ih _)) ?_
        exact List.filter_append_perm _ st.remaining

/-! ## `optimizeOverdraw`: cluster reordering model -/

/-- Exact 3-vectors standing for the `float3` positions of spec §3
(the position view; the model uses exact rationals). -/
abbrev Vec3 := ℚ × ℚ × ℚ

def v3sub (a b : Vec3) : Vec3 := (a.1 - b.1, a.2.1 - b.2.1, a.2.2 - b.2.2)

def v3add (a b : Vec3) : Vec3 := (a.1 + b.1, a.2.1 + b.2.1, a.2.2 + b.2.2)

def v3cross (a b : Vec3) : Vec3 :=
  (a.2.1 * b.2.2 - a.2.2 * b.2.1, a.2.2 * b.1 - a.1 * b.2.2, a.1 * b.2.1 - a.2.1 * b.1)

def v3dot (a b : Vec3) : ℚ := a.1 * b.1 + a.2.1 * b.2.1 + a.2.2 * b.2.2

/-- Unnormalized face normal of a triangle (cross product of two edges). -/
def triNormal (pos : ℕ → Vec3) (t : Tri) : Vec3 :=
  v3cross (v3sub (pos t.2.1) (pos t.1)) (v3sub (pos t.2.2) (pos t.1))

/-- Area-weighted normal sum of a cluster's triangles. -/
def clusterNormal (pos : ℕ → Vec3) (c : List Tri) : Vec3 :=
  c.foldl (fun acc t => v3add acc (triNormal pos t)) (0, 0, 0)

/-- The six canonical axis-aligned view directions of spec §4.4. -/
def viewDirs : List Vec3 :=
  [(1, 0, 0), (-1, 0, 0), (0, 1, 0), (0, -1, 0), (0, 0, 1), (0, 0, -1)]

/-- Modelled from the spec (§4.4/§9): per-cluster overdraw penalty,
the sum over the six canonical views of `max(0, dot(view, normal))`.
The spec leaves the exact scoring formula open (§9, second open
question); the triangle-multiset property proved below is independent
of this choice. -/
def overdrawPenalty (pos : ℕ → Vec3) (c : List Tri) : ℚ :=
  (viewDirs.map (fun w => max 0 (v3dot w (clusterNormal pos c)))).sum

/-- Split a triangle list at boundary gaps; concatenating the chunks
always reproduces the input. -/
def chunksFrom : List Tri → ℕ → List ℕ → List (List Tri)
  | l, _, [] => [l]
  | l, pos, b :: bs => l.take (b - pos) :: chunksFrom (l.drop (b - pos)) b bs

/-- Cluster list (triangle start offsets, first entry 0, spec §3) to
consecutive chunks of the triangle list. -/
def clusterChunks (tris : List Tri) (clusters : List ℕ) : List (List Tri) :=
  chunksFrom tris 0 (clusters.drop 1)

theorem chunksFrom_flatten : ∀ (bs : List ℕ) (l : List Tri) (pos : ℕ),
    (chunksFrom l pos bs).flatten = l := by
  intro bs
  induction bs with
  | nil => intro l pos; simp [chunksFrom]
  | cons b rest ih =>
    intro l pos
    simp [chunksFrom, ih]

/-- Least-penalty cluster of a list (processed head-first, so ties keep
the earliest cluster, matching §4.4 "ties broken by original cluster
index"). -/
def pickMin (score : List Tri → ℚ) : List (List Tri) → Option (List Tri)
  | [] => none
  | c :: rest =>
    match pickMin score rest with
    | none => some c
    | some b => if score b < score c then some b else some c

theorem pickMin_mem {score : List Tri → ℚ} :
    ∀ {rem : List (List Tri)} {b : List Tri}, pickMin score rem = some b → b ∈ rem := by
  intro rem
  induction rem with
  | nil => intro b h; exact absurd h (by simp [pickMin])
  | cons c rest ih =>
    intro b h
    rw [pickMin] at h
    rcases hr : pickMin score rest with _ | b' <;> rw [hr] at h
    · have h2 : some c = some b := h
      injection h2 with hb
      exact hb ▸ List.mem_cons_self c rest
    · have h2 : (if score b' < score c then some b' else some c) = some b := h
      by_cases hlt : score b' < score c
      · rw [if_pos hlt] at h2
        injection h2 with hb
        exact hb ▸ List.mem_cons_of_mem c (ih hr)
      · rw [if_neg hlt] at h2
        injection h2 with hb
        exact hb ▸ List.mem_cons_self c rest

theorem pickMin_none {score : List Tri → ℚ} :
    ∀ {rem : List (List Tri)}, pickMin score rem = none → rem = [] := by
  intro rem h
  cases rem with
  | nil => rfl
  | cons c rest =>
    rw [pickMin] at h
    rcases hr : pickMin score rest with _ | b' <;> rw [hr] at h
    · have h2 : some c = none := h
      cases h2
    · have h2 : (if score b' < score c then some b' else some c) = none := h
      by_cases hlt : score b' < score c <;> simp [hlt] at h2

/-- Remove the first occurrence of a chunk. -/
def eraseChunk : List (List Tri) → List Tri → List (List Tri)
  | [], _ => []
  | c :: rest, b => if c = b then rest else c :: eraseChunk rest b

theorem perm_cons_eraseChunk :
    ∀ {rem : List (List Tri)} {b : List Tri}, b ∈ rem →
      rem.Perm (b :: eraseChunk rem b) := by
  intro rem
  induction rem with
  | nil => intro b h; cases h
  | cons c rest ih =>
    intro b h
    rw [eraseChunk]
    by_cases hc : c = b
    · rw [if_pos hc, hc]
    · rw [if_neg hc]
      have hb : b ∈ rest := by
        rcases List.mem_cons.mp h with h1 | h1
        · exact absurd h1.symm hc
        · exact h1
      exact List.Perm.trans (List.Perm.cons c (ih hb)) (List.Perm.swap b c _)

/-- Greedy cluster ordering: repeatedly append the least-penalty
remaining cluster (spec §4.4 step 2; the spec's ACMR-guard constraint
of step 3 only changes which remaining cluster is taken next, never the
fact that exactly the remaining clusters are emitted). -/
def selectChunks (score : List Tri → ℚ) : ℕ → List (List Tri) → List (List Tri)
  | 0, rem => rem
  | fuel + 1, rem =>
    match pickMin score rem with
    | none => []
    | some b => b :: selectChunks score fuel (eraseChunk rem b)

theorem selectChunks_perm (score : List Tri → ℚ) :
    ∀ (fuel : ℕ) (rem : List (List Tri)), (selectChunks score fuel rem).Perm rem := by
  intro fuel
  induction fuel with
  | zero => intro rem; exact List.Perm.refl _
  | succ n ih =>
    intro rem
    rw [selectChunks]
    rcases hp : pickMin score rem with _ | b
    · rw [pickMin_none hp]
    · refine List.Perm.trans (List.Perm.cons b (ih _)) ?_
      exact (perm_cons_eraseChunk (pickMin_mem hp)).symm

/-- Modelled from the spec: `optimizeOverdraw` (§4.4), whose body is not
part of this repository snapshot.  The cluster partition produced by
`optimizePostTransform` is reordered greedily by overdraw penalty and
the clusters' triangles are concatenated in the chosen order.
`cache_size` and `threshold` bound the ACMR regression of the chosen
order (§4.4 step 3); the constraint only influences which cluster is
picked next, so it is omitted from this model, whose scoring the spec
leaves open (§9). -/
def optimizeOverdraw (indices : List ℕ) (vertex_positions : ℕ → Vec3)
    (vertex_count : ℕ) (clusters : List ℕ) (cache_size : ℕ) (threshold : ℚ) : List ℕ :=
  let tris := toTris indices
  let chunks := clusterChunks tris clusters
  let ordered := selectChunks (overdrawPenalty vertex_positions) chunks.length chunks
  flatTris ordered.flatten

/-! ## `optimizePreTransform`: vertex fetch model -/

/-- Vertices in the order `indices` first references them (spec §4.6). -/
def firstUseOrder (indices : List ℕ) : List ℕ :=
  indices.foldl (fun acc i => if i ∈ acc then acc else acc ++ [i]) []

/-- Full new vertex order: first-reference order, then the never
referenced vertices in their original relative order (spec §4.6). -/
def fetchOrder (indices : List ℕ) (vertex_count : ℕ) : List ℕ :=
  firstUseOrder indices ++
    (List.range vertex_count).filter (fun v => decide (v ∉ firstUseOrder indices))

/-- Index remap onto the new vertex order. -/
def remapOf (indices : List ℕ) (vertex_count : ℕ) : ℕ → ℕ :=
  fun i => (fetchOrder indices vertex_count).indexOf i

/-- Modelled from the spec: `optimizePreTransform` (§4.6), whose body is
not part of this repository snapshot.  Returns the reordered vertex
buffer (vertices in first-reference order, unreferenced ones appended)
and the index buffer rewritten in place onto the new ordering. -/
def optimizePreTransform {V : Type} (vertices : ℕ → V) (indices : List ℕ)
    (vertex_count : ℕ) : List V × List ℕ :=
  ((fetchOrder indices vertex_count).map vertices,
    indices.map (remapOf indices vertex_count))

theorem mem_firstUseOrder {indices : List ℕ} {i : ℕ} (h : i ∈ indices) :
    i ∈ firstUseOrder indices := by
  rw [firstUseOrder]
  have key : ∀ (l : List ℕ) (acc : List ℕ), (i ∈ acc ∨ i ∈ l) →
      i ∈ l.foldl (fun acc j => if j ∈ acc then acc else acc ++ [j]) acc := by
    intro l
    induction l with
    | nil =>
      intro acc hm
      rcases hm with hm | hm
      · exact hm
      · cases hm
    | cons j rest ih =>
      intro acc hm
      rw [List.foldl_cons]
      by_cases hj : j ∈ acc
      · rw [if_pos hj]
        apply ih
        rcases hm with hm | hm
        · exact Or.inl hm
        · rcases List.mem_cons.mp hm with hm1 | hm1
          · exact Or.inl (hm1 ▸ hj)
          · exact Or.inr hm1
      · rw [if_neg hj]
        apply ih
        rcases hm with hm | hm
        · exact Or.inl (List.mem_append_left _ hm)
        · rcases List.mem_cons.mp hm with hm1 | hm1
          · exact Or.inl (List.mem_append_right _ (hm1 ▸ List.mem_singleton_self j))
          · exact Or.inr hm1
  exact key indices [] (Or.inr h)

theorem preTransform_lookup {V : Type} (vertices : ℕ → V) (indices : List ℕ)
    (vertex_count : ℕ) {i : ℕ} (h : i ∈ indices) :
    (optimizePreTransform vertices indices vertex_count).1.get?
      (remapOf indices vertex_count i) = some (vertices i) := by
  have hmem : i ∈ fetchOrder indices vertex_count :=
    List.mem_append_left _ (mem_firstUseOrder h)
  have hlt : (fetchOrder indices vertex_count).indexOf i <
      (fetchOrder indices vertex_count).length := List.indexOf_lt_length.mpr hmem
  rw [optimizePreTransform]
  simp only []
  rw [remapOf]
  rw [List.get?_map]
  rw [List.get?_eq_get hlt]
  simp only [Option.map_some']
  rw [List.indexOf_get]

/-! ## Analyzer model and the declared default arguments -/

/-- Mirror of the header's `PostTransformCacheStatistics` (counts as
`ℕ`, the float ratios as exact rationals). -/
structure PostTransformCacheStatistics where
  vertices_transformed : ℕ
  acmr : ℚ
  atvr : ℚ
deriving DecidableEq

/-- One FIFO step (spec §4.3): a hit leaves the cache unchanged; a miss
pushes the index, evicts the oldest beyond `cache_size`, and counts a
transformed vertex. -/
def fifoStep (cache_size : ℕ) (p : List ℕ × ℕ) (i : ℕ) : List ℕ × ℕ :=
  if i ∈ p.1 then p else ((i :: p.1).take cache_size, p.2 + 1)

/-- Modelled from the spec: `analyzePostTransform` (§4.3), whose body is
not part of this repository snapshot: simulate a FIFO vertex cache and
report `acmr = transformed / triangles`, `atvr = transformed / vertices`
(zeros on the degenerate empty inputs). -/
def analyzePostTransform (indices : List ℕ) (vertex_count cache_size : ℕ) :
    PostTransformCacheStatistics :=
  let r := indices.foldl (fifoStep cache_size) ([], 0)
  ⟨r.2,
    if indices.length = 0 then 0 else (r.2 : ℚ) / ((indices.length : ℚ) / 3),
    if vertex_count = 0 then 0 else (r.2 : ℚ) / (vertex_count : ℚ)⟩

/-- Calling `optimizePostTransform` without the `cache_size` argument
(header line 39-40: `unsigned int cache_size = 16`). -/
def optimizePostTransformDefault (indices : List ℕ) (vertex_count : ℕ) :
    List ℕ × List ℕ :=
  optimizePostTransform indices vertex_count 16

/-- Calling `optimizeOverdraw` without `cache_size` and `threshold`
(header line 51-52: `unsigned int cache_size = 16, float threshold = 1`). -/
def optimizeOverdrawDefault (indices : List ℕ) (vertex_positions : ℕ → Vec3)
    (vertex_count : ℕ) (clusters : List ℕ) : List ℕ :=
  optimizeOverdraw indices vertex_positions vertex_count clusters 16 1

/-- Calling `analyzePostTransform` without the `cache_size` argument
(header line 72-73: `unsigned int cache_size = 32`). -/
def analyzePostTransformDefault (indices : List ℕ) (vertex_count : ℕ) :
    PostTransformCacheStatistics :=
  analyzePostTransform indices vertex_count 32

/-! ## Theorems for the optimizer claims -/

/-- Counterexample to C6 as stated: `optimizePreTransform` rewrites
indices onto the first-use vertex order, so its output triangles are
renamed triples, not the input triples.  With indices `[0,1,3]` over 4
vertices the output buffer is `[0,1,2]` and the unordered-triple
multiset changes. -/
theorem preTransform_index_multiset_cex :
    wfIndices [0, 1, 3] 4 ∧
    (optimizePreTransform (fun v : ℕ => v) [0, 1, 3] 4).2 = [0, 1, 2] ∧
    triMS (toTris (optimizePreTransform (fun v : ℕ => v) [0, 1, 3] 4).2) ≠
      triMS (toTris [0, 1, 3]) := by
  refine ⟨⟨by decide, by decide⟩, by decide, by decide⟩

/-- C6 amended: `optimizePostTransform` and `optimizeOverdraw` emit a
permutation of the input triangles (equal unordered-triple multisets);
`optimizePreTransform` instead renames every index through the
first-use remap — its output index buffer is the pointwise image of the
input, and each remapped index fetches exactly the vertex record the
original index referenced. -/
theorem optimizers_triangle_multiset :
    (∀ (indices : List ℕ) (vertex_count cache_size : ℕ),
      wfIndices indices vertex_count →
      triMS (toTris (optimizePostTransform indices vertex_count cache_size).1) =
        triMS (toTris indices)) ∧
    (∀ (indices : List ℕ) (vertex_positions : ℕ → Vec3) (vertex_count : ℕ)
      (clusters : List ℕ) (cache_size : ℕ) (threshold : ℚ),
      wfIndices indices vertex_count →
      triMS (toTris (optimizeOverdraw indices vertex_positions vertex_count clusters
          cache_size threshold)) = triMS (toTris indices)) ∧
    (∀ (V : Type) (vertices : ℕ → V) (indices : List ℕ) (vertex_count : ℕ),
      wfIndices indices vertex_count →
      (optimizePreTransform vertices indices vertex_count).2 =
        indices.map (remapOf indices vertex_count) ∧
      ∀ i ∈ indices, (optimizePreTransform vertices indices vertex_count).1.get?
        (remapOf indices vertex_count i) = some (vertices i)) := by
  refine ⟨?_, ?_, ?_⟩
  · intro indices vertex_count cache_size _
    rw [optimizePostTransform]
    rw [toTris_flatTris]
    exact triMS_of_perm (tipsifyLoop_perm vertex_count cache_size _ _)
  · intro indices vertex_positions vertex_count clusters cache_size threshold _
    rw [optimizeOverdraw]
    rw [toTris_flatTris]
    refine Eq.trans (triMS_of_perm ((selectChunks_perm _ _ _).flatten)) ?_
    rw [clusterChunks, chunksFrom_flatten]
  · intro V vertices indices vertex_count _
    exact ⟨rfl, fun i hi => preTransform_lookup vertices indices vertex_count hi⟩

theorem optimizers_triangle_multiset_witness :
    wfIndices [0, 1, 2, 0, 2, 3] 4 ∧
    triMS (toTris (optimizePostTransform [0, 1, 2, 0, 2, 3] 4 16).1) =
      triMS (toTris [0, 1, 2, 0, 2, 3]) ∧
    triMS (toTris (optimizeOverdraw [0, 1, 2, 0, 2, 3] (fun _ => (0, 0, 0)) 4 [0] 16 1)) =
      triMS (toTris [0, 1, 2, 0, 2, 3]) ∧
    (optimizePreTransform (fun v : ℕ => v) [0, 1, 2, 0, 2, 3] 4).2 =
      [0, 1, 2, 0, 2, 3].map (remapOf [0, 1, 2, 0, 2, 3] 4) :=
  ⟨⟨by decide, by decide⟩,
    optimizers_triangle_multiset.1 [0, 1, 2, 0, 2, 3] 4 16 ⟨by decide, by decide⟩,
    optimizers_triangle_multiset.2.1 [0, 1, 2, 0, 2, 3] (fun _ => (0, 0, 0)) 4 [0] 16 1
      ⟨by decide, by decide⟩,
    (optimizers_triangle_multiset.2.2 ℕ (fun v => v) [0, 1, 2, 0, 2, 3] 4
      ⟨by decide, by decide⟩).1⟩

/-- C7: the header's declared default arguments: `cache_size = 16` for
both optimizers, `cache_size = 32` for the post-transform analyzer, and
`threshold = 1.0` for the overdraw optimizer — calling without the
argument equals calling with that value. -/
theorem default_arguments_match_spec :
    (∀ (indices : List ℕ) (vertex_count : ℕ),
      optimizePostTransformDefault indices vertex_count =
        optimizePostTransform indices vertex_count 16) ∧
    (∀ (indices : List ℕ) (vertex_positions : ℕ → Vec3) (vertex_count : ℕ)
      (clusters : List ℕ),
      optimizeOverdrawDefault indices vertex_positions vertex_count clusters =
        optimizeOverdraw indices vertex_positions vertex_count clusters 16 1) ∧
    (∀ (indices : List ℕ) (vertex_count : ℕ),
      analyzePostTransformDefault indices vertex_count =
        analyzePostTransform indices vertex_count 32) :=
  ⟨fun _ _ => rfl, fun _ _ _ _ => rfl, fun _ _ => rfl⟩
